import Mathlib

/-!
Concurrent pipeline processor: compute engine, validator, aggregator, pipeline

A shallow embedding of `pkg/models/task.go`, `internal/processor/validator.go`,
`internal/processor/processor.go`, `internal/processor/aggregator.go`,
`internal/pipeline/types.go` and `internal/pipeline/pipeline.go`.

Conventions of the embedding.

* Go `int` is modelled as `Int`; every arithmetic result is reduced into the
  two's-complement range of a `bits`-wide integer by `wrapInt`.  Go's `int`
  is 32 or 64 bits wide depending on the platform, so `bits` is a parameter.
* A Go `error` value is modelled by `GoError`; `nil` is `none`.
* A slice-typed field that may be `nil` is an `Option (List _)`.
* A buffered channel is a queue with a capacity (`Chan`); an operation that
  panics yields `none`.
* Code that runs under a scheduler is a function of an explicit schedule: the
  list of the events or `select` cases taken, in order.
-/

/-- Reduction of an integer into the range `[-2^(bits-1), 2^(bits-1))` of a
two's-complement machine integer of width `bits`. -/
def wrapInt (bits : Nat) (x : Int) : Int :=
  (x + 2 ^ (bits - 1)) % 2 ^ bits - 2 ^ (bits - 1)

/-- The most negative value of a `bits`-wide Go `int`. -/
def minInt (bits : Nat) : Int := -(2 ^ (bits - 1))

/-- The largest value of a `bits`-wide Go `int`. -/
def maxInt (bits : Nat) : Int := 2 ^ (bits - 1) - 1

/-- Go `a + b` on `int`. -/
def goAdd (bits : Nat) (a b : Int) : Int := wrapInt bits (a + b)

/-- Go `a - b` on `int`. -/
def goSub (bits : Nat) (a b : Int) : Int := wrapInt bits (a - b)

/-- Go `a * b` on `int`. -/
def goMul (bits : Nat) (a b : Int) : Int := wrapInt bits (a * b)

/-- Go `a / b` on `int` for `b ≠ 0`: the quotient truncated toward zero; the
one quotient that does not fit (most negative value by `-1`) wraps around. -/
def goDiv (bits : Nat) (a b : Int) : Int := wrapInt bits (Int.tdiv a b)

/-- The error values created in package `processor`.  The three `Err...`
constructors are the package-level sentinels; the two `new...` constructors
are the values built in place by `errors.New` inside `validateOperation` and
`applyOperation`, which are distinct from every sentinel. -/
inductive GoError where
  | ErrNilOperations
  | ErrInvalidOperator
  | ErrDivisionByZero
  | newDivisionByZero
  | newDivisionOverflow
  deriving DecidableEq, Repr

/-- Go `err.Error()`: the message of an error value. -/
def GoError.Error : GoError → String
  | .ErrNilOperations => "operations slice is nil"
  | .ErrInvalidOperator => "invalid operator"
  | .ErrDivisionByZero => "division by zero"
  | .newDivisionByZero => "division by zero"
  | .newDivisionOverflow => "division would cause integer overflow"

set_option linter.dupNamespace false

namespace models

/-- Go `type Operator int`. -/
abbrev Operator := Int

def OperatorPlus : Operator := 0
def OperatorMinus : Operator := 1
def OperatorDivide : Operator := 2
def OperatorMultiply : Operator := 3
def OperatorTotalAmount : Operator := 4

structure Operation where
  Operator : models.Operator
  Value : Int
  deriving DecidableEq, Repr

/-- A task; `Operations = none` is the nil slice. -/
structure Task where
  Value : Int
  Operations : Option (List Operation)
  deriving DecidableEq, Repr

structure Result where
  Result : Int
  Error : Option GoError
  deriving DecidableEq, Repr

end models

namespace processor

open models

/-- Transcription of `validateOperation`. -/
def validateOperation (op : Operation) : Option GoError :=
  if op.Operator < 0 ∨ op.Operator ≥ OperatorTotalAmount then
    some GoError.ErrInvalidOperator
  else if op.Operator = OperatorDivide ∧ op.Value = 0 then
    some GoError.newDivisionByZero
  else
    none

/-- The `for _, op := range task.Operations` loop of `ValidateTask`. -/
def validateOperations : List Operation → Option GoError
  | [] => none
  | op :: rest =>
    match validateOperation op with
    | some err => some err
    | none => validateOperations rest

/-- Transcription of `ValidateTask`; `none` is the nil error. -/
def ValidateTask (task : Task) : Option GoError :=
  match task.Operations with
  | none => some GoError.ErrNilOperations
  | some ops => validateOperations ops

/-- Transcription of `applyOperation` (the `switch` is a chain of tests; the
case labels are distinct constants).  The literal is the constant `-1<<31`. -/
def applyOperation (bits : Nat) (value : Int) (op : Operation) : Int × Option GoError :=
  if op.Operator = OperatorPlus then (goAdd bits value op.Value, none)
  else if op.Operator = OperatorMinus then (goSub bits value op.Value, none)
  else if op.Operator = OperatorMultiply then (goMul bits value op.Value, none)
  else if op.Operator = OperatorDivide then
    if op.Value = 0 then (0, some GoError.ErrDivisionByZero)
    else if value = -2147483648 ∧ op.Value = -1 then (0, some GoError.newDivisionOverflow)
    else (goDiv bits value op.Value, none)
  else (0, some GoError.ErrInvalidOperator)

/-- The loop of `ProcessTask` with its early return. -/
def processOperations (bits : Nat) : Int → List Operation → Result
  | result, [] => { Result := result, Error := none }
  | result, op :: rest =>
    match applyOperation bits result op with
    | (r, none) => processOperations bits r rest
    | (_, some err) => { Result := 0, Error := some err }

/-- Transcription of `ProcessTask`; ranging over a nil slice runs no iteration. -/
def ProcessTask (bits : Nat) (task : Task) : Result :=
  processOperations bits task.Value (task.Operations.getD [])

/-- An operator is one of the four valid ones. -/
def validOperator (o : Operator) : Prop :=
  o = OperatorPlus ∨ o = OperatorMinus ∨ o = OperatorDivide ∨ o = OperatorMultiply

instance (o : Operator) : Decidable (validOperator o) := by
  unfold validOperator; infer_instance

/-- One step of the reference fold, following the specification's words:
Plus adds, Minus subtracts, Multiply multiplies, Divide divides truncating
toward zero, each in the arithmetic of the program's integer type. -/
def foldStep (bits : Nat) (acc : Int) (op : Operation) : Int :=
  if op.Operator = OperatorPlus then goAdd bits acc op.Value
  else if op.Operator = OperatorMinus then goSub bits acc op.Value
  else if op.Operator = OperatorMultiply then goMul bits acc op.Value
  else if op.Operator = OperatorDivide then goDiv bits acc op.Value
  else acc

/-- The reference result: the left-to-right fold of the operations over an
accumulator that starts at the task's value. -/
def foldOperations (bits : Nat) (value : Int) (ops : List Operation) : Int :=
  ops.foldl (foldStep bits) value

/-- The conditions under which one operation fails on accumulator `acc`: an
operator outside the valid set, a Divide by zero, or the Divide by `-1` that
the overflow guard of `applyOperation` rejects. -/
def opFails (acc : Int) (op : Operation) : Prop :=
  ¬ validOperator op.Operator ∨
    (op.Operator = OperatorDivide ∧
      (op.Value = 0 ∨ (acc = -2147483648 ∧ op.Value = -1)))

instance (acc : Int) (op : Operation) : Decidable (opFails acc op) := by
  unfold opFails; infer_instance

/-- No operation of `ops` fails when they are evaluated in order from the
accumulator `acc`. -/
def noFailure (bits : Nat) : Int → List Operation → Prop
  | _, [] => True
  | acc, op :: rest => ¬ opFails acc op ∧ noFailure bits (foldStep bits acc op) rest

instance noFailure.instDecidable (bits : Nat) :
    (acc : Int) → (ops : List Operation) → Decidable (noFailure bits acc ops)
  | _, [] => isTrue trivial
  | acc, op :: rest =>
    have := noFailure.instDecidable bits (foldStep bits acc op) rest
    inferInstanceAs (Decidable (¬ opFails acc op ∧ noFailure bits (foldStep bits acc op) rest))

/-- The value is representable in a `bits`-wide Go `int`. -/
def inRange (bits : Nat) (x : Int) : Prop := minInt bits ≤ x ∧ x ≤ maxInt bits

instance (bits : Nat) (x : Int) : Decidable (inRange bits x) := by
  unfold inRange; infer_instance

/-- One step of the fold over the unbounded integers: exact sum, difference
and product, and the quotient truncated toward zero. -/
def exactStep (acc : Int) (op : Operation) : Int :=
  if op.Operator = OperatorPlus then acc + op.Value
  else if op.Operator = OperatorMinus then acc - op.Value
  else if op.Operator = OperatorMultiply then acc * op.Value
  else if op.Operator = OperatorDivide then Int.tdiv acc op.Value
  else acc

/-- The left-to-right fold over the unbounded integers. -/
def exactFold (value : Int) (ops : List Operation) : Int :=
  ops.foldl exactStep value

/-- Every intermediate value of the exact fold is representable. -/
def noOverflow (bits : Nat) : Int → List Operation → Prop
  | _, [] => True
  | acc, op :: rest => inRange bits (exactStep acc op) ∧ noOverflow bits (exactStep acc op) rest

instance noOverflow.instDecidable (bits : Nat) :
    (acc : Int) → (ops : List Operation) → Decidable (noOverflow bits acc ops)
  | _, [] => isTrue trivial
  | acc, op :: rest =>
    have := noOverflow.instDecidable bits (exactStep acc op) rest
    inferInstanceAs
      (Decidable (inRange bits (exactStep acc op) ∧ noOverflow bits (exactStep acc op) rest))

/-- A buffered channel of results: the queued elements in sending order, the
capacity fixed by `make`, and whether `close` has been called. -/
structure Chan where
  queue : List Result
  cap : Int
  closed : Bool
  deriving DecidableEq, Repr

/-- Go `make(chan models.Result, size)`; a negative size panics. -/
def makeChan (size : Int) : Option Chan :=
  if size < 0 then none else some { queue := [], cap := size, closed := false }

/-- The channel takes one more element at once: it is open and holds fewer
elements than its capacity. -/
def Chan.hasRoom (c : Chan) : Prop := c.closed = false ∧ (c.queue.length : Int) < c.cap

instance (c : Chan) : Decidable c.hasRoom := by
  unfold Chan.hasRoom; infer_instance

/-- The statement `select { case ch <- r: ...; case <-time.After(time.Second): panic(...) }`
of `Add` and `flush`, with no receiver taking elements meanwhile: the send
proceeds when the channel has room; otherwise the timer case fires and the
goroutine panics.  A send on a closed channel panics as well. -/
def Chan.sendOrPanic (c : Chan) (r : Result) : Option Chan :=
  if c.closed then none
  else if (c.queue.length : Int) < c.cap then some { c with queue := c.queue ++ [r] }
  else none

/-- Go `close(ch)`; closing a closed channel panics. -/
def Chan.close (c : Chan) : Option Chan :=
  if c.closed then none else some { c with closed := true }

/-- The `Aggregator` struct. -/
structure Aggregator where
  window : Int
  buffer : List Result
  aggregate : Chan
  deriving DecidableEq, Repr

/-- Transcription of `NewAggregator`; `make` panics on a negative capacity.
The channel capacity `window*2` is computed in `int` arithmetic. -/
def NewAggregator (bits : Nat) (window : Int) : Option Aggregator :=
  if window < 0 then none
  else
    match makeChan (goMul bits window 2) with
    | none => none
    | some ch => some { window := window, buffer := [], aggregate := ch }

/-- The loop `sum := 0; for _, r := range a.buffer { sum += r.Result }`. -/
def sumResults (bits : Nat) (buffer : List Result) : Int :=
  buffer.foldl (fun sum r => goAdd bits sum r.Result) 0

/-- Transcription of the unexported `flush`. -/
def Aggregator.flush (bits : Nat) (a : Aggregator) : Option Aggregator :=
  if a.buffer.length = 0 then some a
  else
    match a.aggregate.sendOrPanic { Result := sumResults bits a.buffer, Error := none } with
    | some ch => some { a with buffer := [], aggregate := ch }
    | none => none

/-- Transcription of `Add`. -/
def Aggregator.Add (bits : Nat) (a : Aggregator) (result : Result) : Option Aggregator :=
  if result.Error ≠ none then
    match a.aggregate.sendOrPanic result with
    | some ch => some { a with aggregate := ch }
    | none => none
  else
    let a1 : Aggregator := { a with buffer := a.buffer ++ [result] }
    if (a1.buffer.length : Int) ≥ a1.window then a1.flush bits else some a1

/-- Transcription of the exported `Flush`. -/
def Aggregator.Flush (bits : Nat) (a : Aggregator) : Option Aggregator :=
  if a.buffer.length > 0 then a.flush bits else some a

/-- Transcription of `Results`. -/
def Aggregator.Results (a : Aggregator) : Chan := a.aggregate

/-- Transcription of `Close`. -/
def Aggregator.Close (bits : Nat) (a : Aggregator) : Option Aggregator :=
  match (if a.buffer.length > 0 then a.flush bits else some a) with
  | none => none
  | some a1 =>
    match a1.aggregate.close with
    | none => none
    | some ch => some { a1 with aggregate := ch }

/-- A sequence of `Add` calls, in order; a panic ends the run. -/
def addAll (bits : Nat) : Aggregator → List Result → Option Aggregator
  | a, [] => some a
  | a, r :: rest =>
    match a.Add bits r with
    | none => none
    | some a1 => addAll bits a1 rest

/-- The success result carrying `v`: `models.Result{Result: v}`. -/
def success (v : Int) : Result := { Result := v, Error := none }

/-- The channel `c` after one more element `r` has been queued. -/
def Chan.push (c : Chan) (r : Result) : Chan := { c with queue := c.queue ++ [r] }

/-- The exact sum of the value fields of a list of results. -/
def exactSum (rs : List Result) : Int := (rs.map (fun r => r.Result)).sum

/-- A receive `<-ch` by the consumer of the channel: the oldest queued
element, if there is one, leaves the queue. -/
def Chan.recv (c : Chan) : Option Result × Chan :=
  match c.queue with
  | [] => (none, c)
  | r :: rest => (some r, { c with queue := rest })

/-- One event in the life of an aggregator: a call of `Add`, `Flush` or
`Close` by its owner, or a receive from `Results()` by the consumer. -/
inductive AggEvent where
  | add (r : Result)
  | flush
  | close
  | recv
  deriving DecidableEq, Repr

/-- An aggregator together with what its consumer has received so far. -/
structure AggRun where
  agg : Aggregator
  received : List Result
  deriving DecidableEq, Repr

/-- The effect of one event; `none` when the call panics. -/
def AggRun.step (bits : Nat) (s : AggRun) : AggEvent → Option AggRun
  | .add r => (s.agg.Add bits r).map (fun a => { s with agg := a })
  | .flush => (s.agg.Flush bits).map (fun a => { s with agg := a })
  | .close => (s.agg.Close bits).map (fun a => { s with agg := a })
  | .recv =>
    match s.agg.aggregate.recv with
    | (none, _) => some s
    | (some r, ch) =>
      some { agg := { s.agg with aggregate := ch }, received := s.received ++ [r] }

/-- The events of a schedule taken in order; a panic ends the run. -/
def AggRun.run (bits : Nat) : AggRun → List AggEvent → Option AggRun
  | s, [] => some s
  | s, e :: rest =>
    match s.step bits e with
    | none => none
    | some s1 => AggRun.run bits s1 rest

/-- Everything sent on the output so far, in sending order: what the consumer
has received followed by what is still queued. -/
def AggRun.emitted (s : AggRun) : List Result := s.received ++ s.agg.aggregate.queue

/-- The results passed to `Add` by a schedule, in call order. -/
def addedOf : List AggEvent → List Result
  | [] => []
  | .add r :: rest => r :: addedOf rest
  | _ :: rest => addedOf rest

/-- The schedule in which the consumer receives after every `Add`. -/
def drainedSchedule (rs : List Result) : List AggEvent :=
  rs.flatMap (fun r => [AggEvent.add r, AggEvent.recv])

/-- The successes among a list of results, in order. -/
def successesOf (rs : List Result) : List Result :=
  rs.filter (fun r => decide (r.Error = none))

/-- The consecutive groups of `W` elements of a list, in order; the last group
holds the `1..W-1` elements left over, if any.  The group of index `k` holds
the elements of index `k*W` up to `(k+1)*W`. -/
def windows (W : Nat) (xs : List Result) : List (List Result) :=
  (List.range ((xs.length + W - 1) / W)).map (fun k => (xs.drop (k * W)).take W)

/-- The aggregate of a group: the success carrying the sum of its values. -/
def aggregateOf (bits : Nat) (group : List Result) : Result :=
  success (sumResults bits group)

/-- The placement of the reference transducer: walking the arrivals with the
number `n` of successes seen so far, a failure is passed on at its position,
the next aggregate is emitted when a success completes a group of `W`, and
the aggregates left at the end are emitted at `Close`. -/
def place (W : Nat) : Nat → List Result → List Result → List Result
  | _, [], aggs => aggs
  | n, r :: rest, aggs =>
    if r.Error ≠ none then r :: place W n rest aggs
    else if (n + 1) % W = 0 then
      match aggs with
      | [] => place W (n + 1) rest []
      | g :: more => g :: place W (n + 1) rest more
    else place W (n + 1) rest aggs

/-- The reference transducer of the aggregator, following the specification:
the successes are grouped in arrival order into windows of `W`, each group is
summed, and the sums are placed among the failures. -/
def reference (bits : Nat) (W : Nat) (rs : List Result) : List Result :=
  place W 0 rs ((windows W (successesOf rs)).map (aggregateOf bits))

end processor

namespace pipeline

open models processor

/-- The error values created in package `pipeline`: the six package-level
sentinels, and the two values built in place by `errors.New` inside `Start`
and `AddTask`. -/
inductive PipelineError where
  | ErrPipelineNotStarted
  | ErrPipelineStopped
  | ErrRateLimitExceeded
  | ErrInvalidNumWorkers
  | ErrInvalidAggregationWindow
  | ErrInvalidRateLimit
  | newAlreadyStarted
  | newBufferFull
  deriving DecidableEq, Repr

/-- Go `err.Error()` for the errors of package `pipeline`. -/
def PipelineError.Error : PipelineError → String
  | .ErrPipelineNotStarted => "pipeline not started"
  | .ErrPipelineStopped => "pipeline stopped"
  | .ErrRateLimitExceeded => "rate limit exceeded"
  | .ErrInvalidNumWorkers => "number of workers must be greater than 0"
  | .ErrInvalidAggregationWindow => "aggregation window must be greater than 0"
  | .ErrInvalidRateLimit => "rate limit must be greater than 0"
  | .newAlreadyStarted => "pipeline already started"
  | .newBufferFull => "pipeline buffer full"

/-- The `Options` struct. -/
structure Options where
  NumWorkers : Int
  AggregationWindow : Int
  TasksPerSecond : Int
  BurstSize : Int
  InputBufferSize : Int
  ResultBufferSize : Int
  deriving DecidableEq, Repr

/-- The body of `func (o Options) Validate() error`, run on the receiver `o`:
the returned error together with the value of `o` when the method returns.
The receiver is passed by value, so `o` is the method's own copy. -/
def Options.validateBody (bits : Nat) (o : Options) : Options × Option PipelineError :=
  if o.NumWorkers ≤ 0 then (o, some PipelineError.ErrInvalidNumWorkers)
  else if o.AggregationWindow ≤ 0 then (o, some PipelineError.ErrInvalidAggregationWindow)
  else if o.TasksPerSecond ≤ 0 then (o, some PipelineError.ErrInvalidRateLimit)
  else
    let o1 : Options :=
      if o.BurstSize < o.TasksPerSecond then { o with BurstSize := o.TasksPerSecond } else o
    let o2 : Options :=
      if o1.InputBufferSize ≤ 0 then
        { o1 with InputBufferSize := goMul bits (goMul bits o1.NumWorkers o1.AggregationWindow) 2 }
      else o1
    let o3 : Options :=
      if o2.ResultBufferSize ≤ 0 then
        { o2 with
          ResultBufferSize := goMul bits (goMul bits o2.NumWorkers o2.AggregationWindow) 2 }
      else o2
    (o3, none)

/-- Transcription of `Options.Validate` as its caller sees it: the error alone,
the copy of the receiver being dropped at return. -/
def Options.Validate (bits : Nat) (o : Options) : Option PipelineError :=
  (o.validateBody bits).2

/-- Modelled from the spec: the limiter of `golang.org/x/time/rate`, which is
outside the repository, as a token bucket at one instant: its rate, its
capacity `burst`, and the whole tokens it holds; the refill with time is left
out. -/
structure Limiter where
  limit : Int
  burst : Int
  tokens : Nat
  deriving DecidableEq, Repr

/-- Modelled from the spec: `rate.NewLimiter(limit, burst)` starts with a full
bucket of `burst` tokens. -/
def NewLimiter (limit burst : Int) : Limiter :=
  { limit := limit, burst := burst, tokens := burst.toNat }

/-- Modelled from the spec: `Allow()` consumes one token if one is available
and reports whether it did. -/
def Limiter.Allow (l : Limiter) : Bool × Limiter :=
  if 0 < l.tokens then (true, { l with tokens := l.tokens - 1 }) else (false, l)

/-- A channel of tasks: `queue` lists the tasks sent and not yet taken by the
receiving goroutine, oldest first.  A task handed straight to a receiver that
is blocked in `<-ch` is listed until that receiver takes it, so the list can
be one longer than the buffer capacity `cap` allows. -/
structure TaskChan where
  queue : List Task
  cap : Int
  closed : Bool
  deriving DecidableEq, Repr

/-- Go `make(chan models.Task, size)`; a negative size panics. -/
def makeTaskChan (size : Int) : Option TaskChan :=
  if size < 0 then none else some { queue := [], cap := size, closed := false }

/-- Go `close(ch)` on a channel of tasks; closing a closed channel panics. -/
def TaskChan.close (c : TaskChan) : Option TaskChan :=
  if c.closed then none else some { c with closed := true }

/-- The `pipeline` struct, without its lock and its wait group. -/
structure pipeline where
  opts : Options
  input : TaskChan
  validated : TaskChan
  processed : Chan
  output : Chan
  started : Bool
  stopped : Bool
  limiter : Limiter
  deriving DecidableEq, Repr

/-- Transcription of `NewPipeline`: the pair `(Pipeline, error)` it returns, or
`none` when a `make` panics. -/
def NewPipeline (bits : Nat) (opts : Options) :
    Option (Option pipeline × Option PipelineError) :=
  match opts.Validate bits with
  | some err => some (none, some err)
  | none =>
    let limiter := NewLimiter opts.TasksPerSecond opts.BurstSize
    match makeTaskChan opts.InputBufferSize, makeTaskChan opts.InputBufferSize,
      makeChan opts.ResultBufferSize, makeChan opts.ResultBufferSize with
    | some i, some v, some pr, some out =>
      some (some { opts := opts, input := i, validated := v, processed := pr, output := out,
                   started := false, stopped := false, limiter := limiter }, none)
    | _, _, _, _ => none

/-- Transcription of the flag update of `Start`: the pipeline afterwards and
the returned error.  A nil error means the stages and the cancellation watcher
have been spawned. -/
def pipeline.Start (p : pipeline) : pipeline × Option PipelineError :=
  if p.started then (p, some PipelineError.newAlreadyStarted)
  else ({ p with started := true }, none)

/-- The send case of `select { case p.input <- task: ...; default: ... }` can
proceed: the buffer has room, or a receiver is blocked in `<-p.input`, which
happens only while the queue is empty; on an unbuffered channel the second is
the only way.  `receiverParked` tells whether `runValidator` is blocked in its
receive at the instant of the call. -/
def TaskChan.canSend (c : TaskChan) (receiverParked : Bool) : Prop :=
  (c.queue.length : Int) < c.cap ∨ (receiverParked = true ∧ c.queue = [])

instance (c : TaskChan) (receiverParked : Bool) : Decidable (c.canSend receiverParked) := by
  unfold TaskChan.canSend; infer_instance

/-- Transcription of `AddTask`: the pipeline afterwards and the returned error,
or `none` when the send panics because the input channel is closed.
`receiverParked` is the state of the receiving goroutine at the instant of the
call.  The `select` with a `default` case sends when the send can proceed and
takes the default case otherwise. -/
def pipeline.AddTask (p : pipeline) (receiverParked : Bool) (task : Task) :
    Option (pipeline × Option PipelineError) :=
  if !p.started then some (p, some PipelineError.ErrPipelineNotStarted)
  else if p.stopped then some (p, some PipelineError.ErrPipelineStopped)
  else
    match p.limiter.Allow with
    | (false, lim) => some ({ p with limiter := lim }, some PipelineError.ErrRateLimitExceeded)
    | (true, lim) =>
      if p.input.closed then none
      else if p.input.canSend receiverParked then
        some ({ p with
                limiter := lim
                input := { p.input with queue := p.input.queue ++ [task] } }, none)
      else some ({ p with limiter := lim }, some PipelineError.newBufferFull)

/-- Transcription of `Results`. -/
def pipeline.Results (p : pipeline) : Chan := p.output

/-- Transcription of `shutdown`: the stop flag is set and the input closed once,
then, after the wait for the stages, the output is closed.  What the stages do
to the queues while `p.wg.Wait()` waits is not part of this function. -/
def pipeline.shutdown (p : pipeline) : Option pipeline :=
  let p1 : Option pipeline :=
    if !p.stopped then
      p.input.close.map (fun ch => { p with
                                      stopped := true
                                      input := ch })
    else some p
  match p1 with
  | none => none
  | some p2 => p2.output.close.map (fun ch => { p2 with output := ch })

/-- A pipeline together with its context and the goroutine
`go func() { <-ctx.Done(); p.shutdown() }()` that `Start` spawns: `watching`
holds while that goroutine exists and has not yet called `shutdown`. -/
structure Sys where
  p : pipeline
  watching : Bool
  cancelled : Bool
  deriving DecidableEq, Repr

/-- The lifecycle events: a call of `Start`, a call of `AddTask` (with the
state of the receiving goroutine at that instant), the receive `<-p.input` of
`runValidator` taking the oldest task, the cancellation of the context, and
the watcher goroutine running `shutdown`. -/
inductive SysEvent where
  | start
  | addTask (receiverParked : Bool) (t : Task)
  | validatorTakes
  | cancel
  | watcherRuns
  deriving DecidableEq, Repr

/-- The effect of one lifecycle event; `none` when the call panics.  The
watcher runs `shutdown` only if it exists and the context is cancelled. -/
def Sys.step (s : Sys) : SysEvent → Option Sys
  | .start =>
    match s.p.Start with
    | (p1, none) => some { s with
                           p := p1
                           watching := true }
    | (p1, some _) => some { s with p := p1 }
  | .addTask w t => (s.p.AddTask w t).map (fun r => { s with p := r.1 })
  | .validatorTakes =>
    some { s with p := { s.p with input := { s.p.input with queue := s.p.input.queue.tail } } }
  | .cancel => some { s with cancelled := true }
  | .watcherRuns =>
    if s.watching && s.cancelled then
      s.p.shutdown.map (fun p1 => { s with
                                    p := p1
                                    watching := false })
    else some s

/-- The lifecycle events of a schedule taken in order. -/
def Sys.run : Sys → List SysEvent → Option Sys
  | s, [] => some s
  | s, e :: rest =>
    match s.step e with
    | none => none
    | some s1 => Sys.run s1 rest

/-- What the goroutine of `runAggregator` works on: the processed queue it
reads, its local aggregator, the output queue it writes, and whether the
context is cancelled. -/
structure AggStage where
  processed : Chan
  agg : Aggregator
  output : Chan
  cancelled : Bool
  deriving DecidableEq, Repr

/-- What happens next at the `select` of `runAggregator`: the case that is
taken, or the cancellation of the context by the environment.  A receive from
the aggregator's channel is followed by the inner `select`, which either
sends to the output or takes `ctx.Done()`. -/
inductive Choice where
  | cancel
  | ctxDone
  | fromProcessed
  | forward
  | forwardCancelled
  deriving DecidableEq, Repr

/-- One round of the `for { select { ... } }` loop of `runAggregator` under a
choice: the state afterwards and whether the function returns.  The result is
`none` when the chosen case is not ready, or when the call made panics. -/
def runAggregator.iteration (bits : Nat) (s : AggStage) : Choice → Option (AggStage × Bool)
  | .cancel => some ({ s with cancelled := true }, false)
  | .ctxDone =>
    if s.cancelled then (s.agg.Flush bits).map (fun a => ({ s with agg := a }, true))
    else none
  | .fromProcessed =>
    match s.processed.recv with
    | (some result, ch) =>
      (s.agg.Add bits result).map (fun a => ({ s with
                                               processed := ch
                                               agg := a }, false))
    | (none, _) =>
      if s.processed.closed then (s.agg.Flush bits).map (fun a => ({ s with agg := a }, true))
      else none
  | .forward =>
    match s.agg.Results.recv with
    | (some result, ch) =>
      (s.output.sendOrPanic result).map (fun out => ({ s with
                                                        agg := { s.agg with aggregate := ch }
                                                        output := out }, false))
    | (none, _) => none
  | .forwardCancelled =>
    match s.agg.Results.recv with
    | (some _, ch) =>
      if s.cancelled then some ({ s with agg := { s.agg with aggregate := ch } }, true)
      else none
    | (none, _) => none

/-- The loop of `runAggregator` under a schedule, up to its `return`; `none`
when the schedule ends before the function returns. -/
def runAggregator.loop (bits : Nat) : AggStage → List Choice → Option AggStage
  | _, [] => none
  | s, c :: rest =>
    match runAggregator.iteration bits s c with
    | none => none
    | some (s1, true) => some s1
    | some (s1, false) => runAggregator.loop bits s1 rest

/-- Transcription of `runAggregator` under a schedule: the aggregator is
created, the loop runs until it returns, and the deferred `agg.Close()` runs.
The result is the state of the stage when the function has returned. -/
def pipeline.runAggregator (bits : Nat) (p : pipeline) (cancelled : Bool)
    (schedule : List Choice) : Option AggStage :=
  match NewAggregator bits p.opts.AggregationWindow with
  | none => none
  | some agg =>
    match runAggregator.loop bits ⟨p.processed, agg, p.output, cancelled⟩ schedule with
    | none => none
    | some s => (s.agg.Close bits).map (fun a => { s with agg := a })

end pipeline

namespace processor

open models

theorem operator_range_aux (o : Int) :
    (o = 0 ∨ o = 1 ∨ o = 2 ∨ o = 3) ↔ 0 ≤ o ∧ o < 4 := by
  constructor
  · intro h
    omega
  · intro h
    omega

theorem validOperator_iff_range (o : Operator) :
    validOperator o ↔ 0 ≤ o ∧ o < OperatorTotalAmount :=
  operator_range_aux o

theorem validateOperation_eq_none_iff (op : Operation) :
    validateOperation op = none ↔
      validOperator op.Operator ∧ ¬(op.Operator = OperatorDivide ∧ op.Value = 0) := by
  rw [validOperator_iff_range]
  unfold validateOperation
  split_ifs with h1 h2
  · have h1' : ¬(0 ≤ op.Operator ∧ op.Operator < OperatorTotalAmount) := by
      rintro ⟨ha, hb⟩
      rcases h1 with h | h
      · exact absurd ha (not_le.mpr h)
      · exact absurd hb (not_lt.mpr h)
    simp only [reduceCtorEq, false_iff]
    exact fun h => h1' h.1
  · simp only [reduceCtorEq, false_iff]
    exact fun h => h.2 h2
  · simp only [true_iff]
    refine ⟨⟨?_, ?_⟩, h2⟩
    · exact not_lt.mp (fun h => h1 (Or.inl h))
    · exact not_le.mp (fun h => h1 (Or.inr h))

theorem validateOperations_eq_none_iff (ops : List Operation) :
    validateOperations ops = none ↔
      ∀ op ∈ ops, validOperator op.Operator ∧ ¬(op.Operator = OperatorDivide ∧ op.Value = 0) := by
  induction ops with
  | nil => simp [validateOperations]
  | cons op rest ih =>
    simp only [validateOperations, List.mem_cons, forall_eq_or_imp]
    rw [← ih, ← validateOperation_eq_none_iff]
    cases h : validateOperation op <;> simp

/-- C1: for a task whose operations field is present (empty included),
`ValidateTask` returns no error exactly when every operation has one of the
four valid operators, that is `0 ≤ Operator < OperatorTotalAmount`, and no
operation is a Divide with operand 0. -/
theorem ValidateTask_accepts_iff (v : Int) (ops : List Operation) :
    (ValidateTask { Value := v, Operations := some ops } = none ↔
      ∀ op ∈ ops, validOperator op.Operator ∧
        ¬(op.Operator = OperatorDivide ∧ op.Value = 0)) ∧
    (ValidateTask { Value := v, Operations := some ops } = none ↔
      ∀ op ∈ ops, (0 ≤ op.Operator ∧ op.Operator < OperatorTotalAmount) ∧
        ¬(op.Operator = OperatorDivide ∧ op.Value = 0)) := by
  have h := validateOperations_eq_none_iff ops
  refine ⟨h, ?_⟩
  simp only [ValidateTask]
  rw [h]
  constructor
  · intro hall op hop
    exact ⟨(validOperator_iff_range _).1 (hall op hop).1, (hall op hop).2⟩
  · intro hall op hop
    exact ⟨(validOperator_iff_range _).2 (hall op hop).1, (hall op hop).2⟩

end processor

namespace processor

open models

theorem validateOperation_error (op : Operation) (e : GoError)
    (h : validateOperation op = some e) :
    e = GoError.ErrInvalidOperator ∨ e = GoError.newDivisionByZero := by
  unfold validateOperation at h
  split_ifs at h with h1 h2
  · exact Or.inl (Option.some.inj h).symm
  · exact Or.inr (Option.some.inj h).symm

theorem validateOperations_error (ops : List Operation) (e : GoError)
    (h : validateOperations ops = some e) :
    e = GoError.ErrInvalidOperator ∨ e = GoError.newDivisionByZero := by
  induction ops with
  | nil => simp [validateOperations] at h
  | cons op rest ih =>
    simp only [validateOperations] at h
    cases hop : validateOperation op with
    | none =>
      rw [hop] at h
      exact ih h
    | some e1 =>
      rw [hop] at h
      have he : e1 = e := Option.some.inj h
      exact validateOperation_error op e (he ▸ hop)

/-- C2: `ValidateTask` returns `ErrNilOperations` exactly when the operations
field is absent, whatever the value of the task; a task whose operations field
is present but empty is accepted. -/
theorem ValidateTask_nil_operations_iff (t : Task) :
    (ValidateTask t = some GoError.ErrNilOperations ↔ t.Operations = none) ∧
    ValidateTask { Value := t.Value, Operations := some [] } = none := by
  refine ⟨?_, rfl⟩
  unfold ValidateTask
  cases hops : t.Operations with
  | none => simp
  | some ops =>
    simp only [reduceCtorEq, iff_false]
    intro h
    rcases validateOperations_error ops _ h with h1 | h1 <;> exact absurd h1 (by decide)

theorem applyOperation_of_not_opFails (bits : Nat) (acc : Int) (op : Operation)
    (h : ¬ opFails acc op) :
    applyOperation bits acc op = (foldStep bits acc op, none) := by
  unfold opFails at h
  push_neg at h
  obtain ⟨hv, hd⟩ := h
  unfold applyOperation foldStep
  by_cases h1 : op.Operator = OperatorPlus
  · simp only [if_pos h1]
  by_cases h2 : op.Operator = OperatorMinus
  · simp only [if_neg h1, if_pos h2]
  by_cases h3 : op.Operator = OperatorMultiply
  · simp only [if_neg h1, if_neg h2, if_pos h3]
  by_cases h4 : op.Operator = OperatorDivide
  · obtain ⟨hz, hovf⟩ := hd h4
    have hovf' : ¬(acc = -2147483648 ∧ op.Value = -1) := fun hc => hovf hc.1 hc.2
    simp only [if_neg h1, if_neg h2, if_neg h3, if_pos h4, if_neg hz, if_neg hovf']
  · exact absurd hv (by
      unfold validOperator
      push_neg
      exact ⟨h1, h2, h4, h3⟩)

theorem not_opFails_of_ne_divide (acc : Int) (op : Operation)
    (hv : validOperator op.Operator) (hd : op.Operator ≠ OperatorDivide) :
    ¬ opFails acc op := by
  rintro (h | ⟨h, _⟩)
  · exact h hv
  · exact hd h

theorem applyOperation_of_opFails (bits : Nat) (acc : Int) (op : Operation)
    (h : opFails acc op) :
    ∃ e, applyOperation bits acc op = (0, some e) := by
  unfold applyOperation
  by_cases h1 : op.Operator = OperatorPlus
  · exact absurd h (not_opFails_of_ne_divide acc op (Or.inl h1) (by rw [h1]; decide))
  by_cases h2 : op.Operator = OperatorMinus
  · exact absurd h (not_opFails_of_ne_divide acc op (Or.inr (Or.inl h2)) (by rw [h2]; decide))
  by_cases h3 : op.Operator = OperatorMultiply
  · exact absurd h
      (not_opFails_of_ne_divide acc op (Or.inr (Or.inr (Or.inr h3))) (by rw [h3]; decide))
  by_cases h4 : op.Operator = OperatorDivide
  · simp only [if_neg h1, if_neg h2, if_neg h3, if_pos h4]
    by_cases hz : op.Value = 0
    · exact ⟨GoError.ErrDivisionByZero, by simp only [if_pos hz]⟩
    · by_cases hovf : acc = -2147483648 ∧ op.Value = -1
      · exact ⟨GoError.newDivisionOverflow, by simp only [if_neg hz, if_pos hovf]⟩
      · exfalso
        rcases h with h | ⟨_, h | h⟩
        · exact h (Or.inr (Or.inr (Or.inl h4)))
        · exact hz h
        · exact hovf h
  · exact ⟨GoError.ErrInvalidOperator, by simp only [if_neg h1, if_neg h2, if_neg h3, if_neg h4]⟩

theorem processOperations_of_noFailure (bits : Nat) (ops : List Operation) :
    ∀ acc : Int, noFailure bits acc ops →
      processOperations bits acc ops = success (foldOperations bits acc ops) := by
  induction ops with
  | nil =>
    intro acc _
    rfl
  | cons op rest ih =>
    intro acc h
    obtain ⟨hop, hrest⟩ := h
    simp only [processOperations, applyOperation_of_not_opFails bits acc op hop]
    exact ih _ hrest

theorem processOperations_append (bits : Nat) (pre rest : List Operation) :
    ∀ acc : Int, noFailure bits acc pre →
      processOperations bits acc (pre ++ rest) =
        processOperations bits (foldOperations bits acc pre) rest := by
  induction pre with
  | nil =>
    intro acc _
    rfl
  | cons op tl ih =>
    intro acc h
    obtain ⟨hop, htl⟩ := h
    simp only [List.cons_append, processOperations,
      applyOperation_of_not_opFails bits acc op hop]
    exact ih _ htl

theorem processOperations_of_opFails (bits : Nat) (acc : Int) (op : Operation)
    (rest : List Operation) (h : opFails acc op) :
    ∃ e, processOperations bits acc (op :: rest) = { Result := 0, Error := some e } := by
  obtain ⟨e, he⟩ := applyOperation_of_opFails bits acc op h
  exact ⟨e, by simp only [processOperations, he]⟩

theorem two_pow_bits (bits : Nat) (hb : 0 < bits) :
    (2 : Int) ^ bits = 2 * 2 ^ (bits - 1) := by
  obtain ⟨k, rfl⟩ : ∃ k, bits = k + 1 := ⟨bits - 1, by omega⟩
  rw [Nat.add_sub_cancel, pow_succ]
  ring

theorem wrapInt_eq_self (bits : Nat) (hb : 0 < bits) (x : Int) (h : inRange bits x) :
    wrapInt bits x = x := by
  unfold inRange minInt maxInt at h
  unfold wrapInt
  rw [two_pow_bits bits hb]
  have hpos : (0 : Int) < 2 ^ (bits - 1) := by positivity
  generalize (2 : Int) ^ (bits - 1) = m at h hpos
  rw [Int.emod_eq_of_lt (by omega) (by omega)]
  ring

theorem foldStep_eq_exactStep (bits : Nat) (hb : 0 < bits) (acc : Int) (op : Operation)
    (h : inRange bits (exactStep acc op)) :
    foldStep bits acc op = exactStep acc op := by
  unfold exactStep at h ⊢
  unfold foldStep goAdd goSub goMul goDiv
  split_ifs at h ⊢ with h1 h2 h3 h4
  · exact wrapInt_eq_self bits hb _ h
  · exact wrapInt_eq_self bits hb _ h
  · exact wrapInt_eq_self bits hb _ h
  · exact wrapInt_eq_self bits hb _ h
  · rfl

theorem foldOperations_eq_exactFold (bits : Nat) (hb : 0 < bits) (ops : List Operation) :
    ∀ acc : Int, noOverflow bits acc ops →
      foldOperations bits acc ops = exactFold acc ops := by
  induction ops with
  | nil =>
    intro acc _
    rfl
  | cons op rest ih =>
    intro acc h
    obtain ⟨hop, hrest⟩ := h
    simp only [foldOperations, exactFold, List.foldl_cons]
    rw [foldStep_eq_exactStep bits hb acc op hop]
    exact ih _ hrest

/-- C3: on a task none of whose operations fails, `ProcessTask` returns the
success whose value is the left-to-right fold of the operations from the
task's value, computed in the arithmetic of Go `int`; whenever every
intermediate exact value is representable this is the exact integer fold, in
which Divide truncates toward zero.  An empty sequence returns the value
unchanged, `-7 / 2` is `-3`, and the two sample tasks give 27 and 150. -/
theorem ProcessTask_eq_fold (bits : Nat) (t : Task)
    (h : noFailure bits t.Value (t.Operations.getD [])) :
    ProcessTask bits t = success (foldOperations bits t.Value (t.Operations.getD [])) ∧
    (0 < bits → noOverflow bits t.Value (t.Operations.getD []) →
      ProcessTask bits t = success (exactFold t.Value (t.Operations.getD []))) ∧
    ProcessTask bits { Value := t.Value, Operations := some [] } = success t.Value ∧
    exactFold (-7) [⟨OperatorDivide, 2⟩] = -3 ∧
    ProcessTask 64 { Value := -7, Operations := some [⟨OperatorDivide, 2⟩] } = success (-3) ∧
    ProcessTask 64 ⟨10, some [⟨OperatorPlus, 5⟩, ⟨OperatorMultiply, 2⟩, ⟨OperatorMinus, 3⟩]⟩
      = success 27 ∧
    ProcessTask 64 ⟨100, some [⟨OperatorDivide, 2⟩, ⟨OperatorPlus, 10⟩,
        ⟨OperatorMultiply, 3⟩, ⟨OperatorMinus, 30⟩]⟩
      = success 150 := by
  have hfold := processOperations_of_noFailure bits (t.Operations.getD []) t.Value h
  refine ⟨hfold, ?_, rfl, by decide, by decide, by decide, by decide⟩
  intro hb hno
  unfold ProcessTask
  rw [hfold, foldOperations_eq_exactFold bits hb _ _ hno]

theorem ProcessTask_eq_fold_witness :
    noFailure 32 100 [⟨OperatorDivide, 2⟩, ⟨OperatorPlus, 10⟩] ∧
    ProcessTask 32 { Value := 100, Operations := some [⟨OperatorDivide, 2⟩, ⟨OperatorPlus, 10⟩] }
      = success 60 :=
  ⟨by decide,
    (ProcessTask_eq_fold 32
      { Value := 100, Operations := some [⟨OperatorDivide, 2⟩, ⟨OperatorPlus, 10⟩] }
      (by decide)).1⟩

/-- C4: when the operations before a Divide with operand 0 evaluate without
failure, `ProcessTask` returns the failure carrying `ErrDivisionByZero`, whose
message is "division by zero", whatever the accumulator is at that point and
whatever operations follow. -/
theorem ProcessTask_division_by_zero (bits : Nat) (v : Int) (pre post : List Operation)
    (h : noFailure bits v pre) :
    ProcessTask bits { Value := v, Operations := some (pre ++ ⟨OperatorDivide, 0⟩ :: post) }
      = { Result := 0, Error := some GoError.ErrDivisionByZero } ∧
    GoError.ErrDivisionByZero.Error = "division by zero" := by
  refine ⟨?_, rfl⟩
  unfold ProcessTask
  simp only [Option.getD_some]
  rw [processOperations_append bits pre _ v h]
  rfl

theorem ProcessTask_division_by_zero_witness :
    noFailure 64 10 [⟨OperatorPlus, 5⟩] ∧
    ProcessTask 64 ⟨10, some ([⟨OperatorPlus, 5⟩] ++ ⟨OperatorDivide, 0⟩ :: [⟨OperatorMinus, 1⟩])⟩
      = { Result := 0, Error := some GoError.ErrDivisionByZero } :=
  ⟨by decide,
    (ProcessTask_division_by_zero 64 10 [⟨OperatorPlus, 5⟩] [⟨OperatorMinus, 1⟩]
      (by decide)).1⟩

/-- C5: on a 64-bit `int` the Divide of the most negative integer by `-1` is
not rejected: `ProcessTask` returns a success carrying the wrapped-around
quotient, the most negative integer itself, although the exact quotient is
one more than the largest integer.  The guard of `applyOperation` compares
with `-1<<31`: it fires on a 32-bit `int`, and on a 64-bit `int` it rejects
`-2147483648 / -1`, whose quotient is representable. -/
theorem ProcessTask_minInt64_div_neg_one :
    ProcessTask 64 ⟨minInt 64, some [⟨OperatorDivide, -1⟩]⟩ = success (minInt 64) ∧
    Int.tdiv (minInt 64) (-1) = maxInt 64 + 1 ∧
    ProcessTask 32 ⟨minInt 32, some [⟨OperatorDivide, -1⟩]⟩
      = { Result := 0, Error := some GoError.newDivisionOverflow } ∧
    ProcessTask 64 ⟨-2147483648, some [⟨OperatorDivide, -1⟩]⟩
      = { Result := 0, Error := some GoError.newDivisionOverflow } ∧
    inRange 64 (Int.tdiv (-2147483648) (-1)) := by
  refine ⟨by decide, by decide, by decide, by decide, by decide⟩

theorem processOperations_error_result (bits : Nat) (ops : List Operation) :
    ∀ acc : Int, (processOperations bits acc ops).Error ≠ none →
      (processOperations bits acc ops).Result = 0 := by
  induction ops with
  | nil =>
    intro acc h
    exact absurd rfl h
  | cons op rest ih =>
    intro acc
    rcases hres : applyOperation bits acc op with ⟨r, _ | e⟩
    · simp only [processOperations, hres]
      exact ih r
    · simp only [processOperations, hres]
      intro _
      trivial

/-- C6: the `Result` returned by `ProcessTask` has one arm populated: its
`Error` is nil, or it is non-nil and the value field is 0; and when the first
failing operation is `op`, reached after the operations `pre`, the operations
that follow it do not influence the returned `Result`, whose value is 0. -/
theorem ProcessTask_single_arm :
    (∀ (bits : Nat) (t : Task), (ProcessTask bits t).Error = none ∨
      ((ProcessTask bits t).Error ≠ none ∧ (ProcessTask bits t).Result = 0)) ∧
    (∀ (bits : Nat) (v : Int) (pre : List Operation) (op : Operation)
      (post post2 : List Operation),
      noFailure bits v pre → opFails (foldOperations bits v pre) op →
        ProcessTask bits ⟨v, some (pre ++ op :: post)⟩
          = ProcessTask bits ⟨v, some (pre ++ op :: post2)⟩ ∧
        (ProcessTask bits ⟨v, some (pre ++ op :: post)⟩).Error ≠ none ∧
        (ProcessTask bits ⟨v, some (pre ++ op :: post)⟩).Result = 0) := by
  constructor
  · intro bits t
    by_cases h : (ProcessTask bits t).Error = none
    · exact Or.inl h
    · exact Or.inr ⟨h, processOperations_error_result bits _ _ h⟩
  · intro bits v pre op post post2 hpre hop
    obtain ⟨e, he⟩ := applyOperation_of_opFails bits _ op hop
    have key : ∀ rest : List Operation,
        ProcessTask bits ⟨v, some (pre ++ op :: rest)⟩ = { Result := 0, Error := some e } := by
      intro rest
      unfold ProcessTask
      simp only [Option.getD_some]
      rw [processOperations_append bits pre _ v hpre]
      simp only [processOperations, he]
    rw [key post, key post2]
    exact ⟨rfl, by simp, rfl⟩

theorem ProcessTask_single_arm_witness :
    noFailure 64 10 [⟨OperatorPlus, 5⟩] ∧
    opFails (foldOperations 64 10 [⟨OperatorPlus, 5⟩]) ⟨OperatorTotalAmount, 1⟩ ∧
    ProcessTask 64 ⟨10, some ([⟨OperatorPlus, 5⟩] ++ ⟨OperatorTotalAmount, 1⟩ :: [])⟩
      = ProcessTask 64
          ⟨10, some ([⟨OperatorPlus, 5⟩] ++ ⟨OperatorTotalAmount, 1⟩ :: [⟨OperatorMinus, 7⟩])⟩ :=
  ⟨by decide, by decide,
    (ProcessTask_single_arm.2 64 10 [⟨OperatorPlus, 5⟩] ⟨OperatorTotalAmount, 1⟩ []
      [⟨OperatorMinus, 7⟩] (by decide) (by decide)).1⟩

theorem applyOperation_of_validated (bits : Nat) (acc : Int) (op : Operation)
    (h : validateOperation op = none) :
    (applyOperation bits acc op).2 = none ∨
      applyOperation bits acc op = (0, some GoError.newDivisionOverflow) := by
  obtain ⟨hv, hd⟩ := (validateOperation_eq_none_iff op).1 h
  by_cases hf : opFails acc op
  · right
    rcases hf with hf | ⟨h4, hz | hovf⟩
    · exact absurd hv hf
    · exact absurd ⟨h4, hz⟩ hd
    · have h1 : ¬ op.Operator = OperatorPlus := by rw [h4]; decide
      have h2 : ¬ op.Operator = OperatorMinus := by rw [h4]; decide
      have h3 : ¬ op.Operator = OperatorMultiply := by rw [h4]; decide
      have hz : ¬ op.Value = 0 := fun hz => hd ⟨h4, hz⟩
      unfold applyOperation
      simp only [if_neg h1, if_neg h2, if_neg h3, if_pos h4, if_neg hz, if_pos hovf]
  · left
    rw [applyOperation_of_not_opFails bits acc op hf]

theorem processOperations_of_validated (bits : Nat) (ops : List Operation)
    (h : validateOperations ops = none) :
    ∀ acc : Int, (processOperations bits acc ops).Error = none ∨
      (processOperations bits acc ops).Error = some GoError.newDivisionOverflow := by
  induction ops with
  | nil =>
    intro acc
    exact Or.inl rfl
  | cons op rest ih =>
    intro acc
    simp only [validateOperations] at h
    cases hop : validateOperation op with
    | some e1 => rw [hop] at h; exact absurd h (by simp)
    | none =>
      rw [hop] at h
      rcases applyOperation_of_validated bits acc op hop with h2 | h2
      · rcases hres : applyOperation bits acc op with ⟨r, _ | e⟩
        · simp only [processOperations, hres]
          exact ih h r
        · rw [hres] at h2
          exact absurd h2 (by simp)
      · simp only [processOperations, h2]
        exact Or.inr trivial

/-- C7: on a task that `ValidateTask` accepts, `ProcessTask` fails neither
with `ErrInvalidOperator` nor with `ErrDivisionByZero`; its error is nil or the
division-overflow error, and that failure does occur on an accepted task. -/
theorem ProcessTask_of_validated (bits : Nat) (t : Task) (h : ValidateTask t = none) :
    (ProcessTask bits t).Error ≠ some GoError.ErrInvalidOperator ∧
    (ProcessTask bits t).Error ≠ some GoError.ErrDivisionByZero ∧
    ((ProcessTask bits t).Error = none ∨
      (ProcessTask bits t).Error = some GoError.newDivisionOverflow) ∧
    (ValidateTask ⟨-2147483648, some [⟨OperatorDivide, -1⟩]⟩ = none ∧
      (ProcessTask bits ⟨-2147483648, some [⟨OperatorDivide, -1⟩]⟩).Error
        = some GoError.newDivisionOverflow) := by
  have key : (ProcessTask bits t).Error = none ∨
      (ProcessTask bits t).Error = some GoError.newDivisionOverflow := by
    unfold ValidateTask at h
    unfold ProcessTask
    cases hops : t.Operations with
    | none => exact Or.inl rfl
    | some ops =>
      rw [hops] at h
      exact processOperations_of_validated bits ops h t.Value
  refine ⟨?_, ?_, key, by decide, ?_⟩
  · rcases key with k | k <;> rw [k] <;> decide
  · rcases key with k | k <;> rw [k] <;> decide
  · rfl

theorem ProcessTask_of_validated_witness :
    ValidateTask ⟨8, some [⟨OperatorDivide, 2⟩]⟩ = none ∧
    (ProcessTask 64 ⟨8, some [⟨OperatorDivide, 2⟩]⟩).Error ≠ some GoError.ErrDivisionByZero :=
  ⟨by decide, (ProcessTask_of_validated 64 ⟨8, some [⟨OperatorDivide, 2⟩]⟩ (by decide)).2.1⟩

theorem wrapInt_wrapInt_add (bits : Nat) (a b : Int) :
    wrapInt bits (wrapInt bits a + b) = wrapInt bits (a + b) := by
  unfold wrapInt
  have h : (a + 2 ^ (bits - 1)) % 2 ^ bits - 2 ^ (bits - 1) + b + 2 ^ (bits - 1)
      = (a + 2 ^ (bits - 1)) % 2 ^ bits + b := by ring
  rw [h, Int.emod_add_emod]
  have h2 : a + 2 ^ (bits - 1) + b = a + b + 2 ^ (bits - 1) := by ring
  rw [h2]

theorem foldl_goAdd_eq (bits : Nat) (rs : List Result) :
    ∀ init : Int, rs ≠ [] →
      rs.foldl (fun sum r => goAdd bits sum r.Result) init = wrapInt bits (init + exactSum rs) := by
  induction rs with
  | nil =>
    intro init h
    exact absurd rfl h
  | cons r tl ih =>
    intro init _
    by_cases htl : tl = []
    · subst htl
      simp [exactSum, goAdd]
    · rw [List.foldl_cons, ih _ htl]
      unfold goAdd
      rw [wrapInt_wrapInt_add]
      simp only [exactSum, List.map_cons, List.sum_cons]
      congr 1
      ring

theorem sumResults_eq (bits : Nat) (rs : List Result) (h : rs ≠ []) :
    sumResults bits rs = wrapInt bits (exactSum rs) := by
  unfold sumResults
  rw [foldl_goAdd_eq bits rs 0 h, zero_add]

theorem sumResults_exact (bits : Nat) (hb : 0 < bits) (rs : List Result)
    (h : inRange bits (exactSum rs)) :
    sumResults bits rs = exactSum rs := by
  by_cases hrs : rs = []
  · subst hrs
    rfl
  · rw [sumResults_eq bits rs hrs, wrapInt_eq_self bits hb _ h]

theorem sendOrPanic_of_hasRoom (c : Chan) (r : Result) (h : c.hasRoom) :
    c.sendOrPanic r = some (c.push r) := by
  obtain ⟨hopen, hlen⟩ := h
  unfold Chan.sendOrPanic Chan.push
  rw [hopen]
  simp only [Bool.false_eq_true, if_false, if_pos hlen]

theorem Add_success_below_window (bits : Nat) (a : Aggregator) (r : Result)
    (hr : r.Error = none) (hlen : (a.buffer.length : Int) + 1 < a.window) :
    a.Add bits r = some { a with buffer := a.buffer ++ [r] } := by
  unfold Aggregator.Add
  have h1 : ¬ (r.Error ≠ none) := fun h => h hr
  simp only [if_neg h1]
  have h2 : ¬ (((a.buffer ++ [r]).length : Int) ≥ a.window) := by
    rw [List.length_append, List.length_singleton]
    push_cast
    omega
  rw [if_neg h2]

theorem Add_success_fills_window (bits : Nat) (a : Aggregator) (r : Result)
    (hr : r.Error = none) (hlen : a.window ≤ (a.buffer.length : Int) + 1)
    (hroom : a.aggregate.hasRoom) :
    a.Add bits r = some { a with
      buffer := []
      aggregate := a.aggregate.push (success (sumResults bits (a.buffer ++ [r]))) } := by
  unfold Aggregator.Add
  have h1 : ¬ (r.Error ≠ none) := fun h => h hr
  simp only [if_neg h1]
  have h2 : (((a.buffer ++ [r]).length : Int) ≥ a.window) := by
    rw [List.length_append, List.length_singleton]
    push_cast
    omega
  rw [if_pos h2]
  unfold Aggregator.flush
  have h3 : ¬ ((a.buffer ++ [r]).length = 0) := by simp
  simp only [if_neg h3]
  have hsend := sendOrPanic_of_hasRoom a.aggregate
    { Result := sumResults bits (a.buffer ++ [r]), Error := none } hroom
  simp only [hsend]
  rfl

theorem addAll_below_window (bits : Nat) (rs : List Result) :
    ∀ a : Aggregator, (∀ r ∈ rs, r.Error = none) →
      (a.buffer.length : Int) + rs.length < a.window →
      addAll bits a rs = some { a with buffer := a.buffer ++ rs } := by
  induction rs with
  | nil =>
    intro a _ _
    simp [addAll]
  | cons r tl ih =>
    intro a hall hlen
    have hr : r.Error = none := hall r (List.mem_cons_self r tl)
    have htl : ∀ x ∈ tl, x.Error = none := fun x hx => hall x (List.mem_cons_of_mem r hx)
    rw [List.length_cons] at hlen
    push_cast at hlen
    have hstep := Add_success_below_window bits a r hr (by omega)
    simp only [addAll, hstep]
    rw [ih { a with buffer := a.buffer ++ [r] } htl (by
      simp only [List.length_append, List.length_singleton]
      push_cast
      omega)]
    simp

theorem addAll_append (bits : Nat) (xs ys : List Result) :
    ∀ a : Aggregator,
      addAll bits a (xs ++ ys) = (addAll bits a xs).bind (fun a1 => addAll bits a1 ys) := by
  induction xs with
  | nil =>
    intro a
    rfl
  | cons x tl ih =>
    intro a
    simp only [List.cons_append, addAll]
    cases a.Add bits x with
    | none => rfl
    | some a1 => exact ih a1

theorem NewAggregator_fields (bits : Nat) (W : Int) (a : Aggregator)
    (h : NewAggregator bits W = some a) :
    a.window = W ∧ a.buffer = [] ∧ a.aggregate.queue = [] ∧ a.aggregate.closed = false := by
  unfold NewAggregator makeChan at h
  split_ifs at h with h1 h2
  simp only [Option.some.injEq] at h
  subst h
  exact ⟨rfl, rfl, rfl, rfl⟩

theorem exactSum_map_success (vals : List Int) : exactSum (vals.map success) = vals.sum := by
  induction vals with
  | nil => rfl
  | cons v tl ih =>
    unfold exactSum at ih ⊢
    simp only [List.map_cons, List.sum_cons, ih]
    rfl

/-- C8: on the aggregator created by `NewAggregator W` with `W > 0`, whose
output channel has room, `W` calls of `Add` with success values leave exactly
one result in the output, the success carrying the sum of the `W` values in
`int` arithmetic (the exact sum whenever it is representable), and leave the
buffer empty; after fewer than `W` calls nothing has been sent. -/
theorem Aggregator_Add_full_window (bits : Nat) (W : Int) (a : Aggregator) (vals : List Int)
    (hW : 0 < W) (hlen : (vals.length : Int) = W)
    (hnew : NewAggregator bits W = some a) (hroom : a.aggregate.hasRoom) :
    addAll bits a (vals.map success)
      = some ⟨W, [], ⟨[success (sumResults bits (vals.map success))], a.aggregate.cap, false⟩⟩ ∧
    sumResults bits (vals.map success) = wrapInt bits vals.sum ∧
    (0 < bits → inRange bits vals.sum → sumResults bits (vals.map success) = vals.sum) ∧
    (∀ n : Nat, n < vals.length →
      addAll bits a ((vals.take n).map success)
        = some ⟨W, (vals.take n).map success, ⟨[], a.aggregate.cap, false⟩⟩) := by
  obtain ⟨hw, hbuf, hq, hcl⟩ := NewAggregator_fields bits W a hnew
  obtain ⟨w, buf, ⟨q, cap, cl⟩⟩ := a
  simp only at hw hbuf hq hcl
  subst hw hbuf hq hcl
  have hne : vals ≠ [] := by
    rintro rfl
    simp at hlen
    omega
  have hsucc : ∀ (l : List Int), ∀ r ∈ l.map success, r.Error = none := by
    intro l r hr
    obtain ⟨v, _, rfl⟩ := List.mem_map.1 hr
    rfl
  refine ⟨?_, ?_, ?_, ?_⟩
  · rcases List.eq_nil_or_concat vals with h | ⟨L, b, hLb⟩
    · exact absurd h hne
    · rw [List.concat_eq_append] at hLb
      subst hLb
      rw [List.length_append, List.length_singleton] at hlen
      push_cast at hlen
      have h1 : addAll bits ⟨w, [], ⟨[], cap, false⟩⟩ (L.map success)
          = some ⟨w, L.map success, ⟨[], cap, false⟩⟩ :=
        addAll_below_window bits (L.map success) ⟨w, [], ⟨[], cap, false⟩⟩ (hsucc L) (by
          show ((([] : List Result).length : Int) + ((L.map success).length : Nat) < w)
          simp only [List.length_nil, List.length_map]
          push_cast
          omega)
      have h2 : Aggregator.Add bits ⟨w, L.map success, ⟨[], cap, false⟩⟩ (success b)
          = some ⟨w, [],
              ⟨[success (sumResults bits (L.map success ++ [success b]))], cap, false⟩⟩ :=
        Add_success_fills_window bits ⟨w, L.map success, ⟨[], cap, false⟩⟩ (success b) rfl (by
          show (w ≤ ((L.map success).length : Int) + 1)
          simp only [List.length_map]
          omega) hroom
      rw [List.map_append, addAll_append, h1]
      simp only [Option.some_bind, List.map_cons, List.map_nil, addAll, h2]
  · rw [sumResults_eq bits _ (by simpa using hne), exactSum_map_success]
  · intro hb hr
    rw [sumResults_exact bits hb _ (by rw [exactSum_map_success]; exact hr),
      exactSum_map_success]
  · intro n hn
    exact addAll_below_window bits _ ⟨w, [], ⟨[], cap, false⟩⟩ (hsucc (vals.take n)) (by
      show ((([] : List Result).length : Int) + (((vals.take n).map success).length : Nat) < w)
      simp only [List.length_nil, List.length_map, List.length_take]
      have : min n vals.length = n := Nat.min_eq_left (Nat.le_of_lt hn)
      rw [this]
      push_cast
      omega)

theorem Aggregator_Add_full_window_witness :
    addAll 64 ⟨3, [], ⟨[], 6, false⟩⟩ ([1, 2, 3].map success)
      = some ⟨3, [], ⟨[success 6], 6, false⟩⟩ :=
  (Aggregator_Add_full_window 64 3 ⟨3, [], ⟨[], 6, false⟩⟩ [1, 2, 3]
    (by decide) (by decide) (by decide) (by decide)).1

/-- C9: when the output channel has room, `Add` of a failure result `r`
queues exactly `r`, unmodified, behind what the channel already holds, and
leaves the buffer, the window size and the rest of the state as they were,
whatever the buffer holds. -/
theorem Aggregator_Add_failure (bits : Nat) (a : Aggregator) (r : Result)
    (hr : r.Error ≠ none) (hroom : a.aggregate.hasRoom) :
    a.Add bits r
      = some ⟨a.window, a.buffer,
          ⟨a.aggregate.queue ++ [r], a.aggregate.cap, a.aggregate.closed⟩⟩ := by
  unfold Aggregator.Add
  simp only [if_pos hr, sendOrPanic_of_hasRoom a.aggregate r hroom]
  rfl

theorem Aggregator_Add_failure_witness :
    Aggregator.Add 64 ⟨3, [success 1, success 2], ⟨[success 9], 6, false⟩⟩
        ⟨0, some GoError.ErrInvalidOperator⟩
      = some ⟨3, [success 1, success 2],
          ⟨[success 9, ⟨0, some GoError.ErrInvalidOperator⟩], 6, false⟩⟩ :=
  Aggregator_Add_failure 64 ⟨3, [success 1, success 2], ⟨[success 9], 6, false⟩⟩
    ⟨0, some GoError.ErrInvalidOperator⟩ (by decide) (by decide)

/-- C10: when the output channel has room, `Flush` on a non-empty buffer
queues exactly one success result, carrying the sum of the buffered values in
`int` arithmetic (the exact sum whenever it is representable), and empties the
buffer; `Flush` on an empty buffer returns the state unchanged; hence a second
`Flush` right after the first changes nothing. -/
theorem Aggregator_Flush_emits_sum (bits : Nat) (a : Aggregator)
    (hroom : a.aggregate.hasRoom) :
    (a.buffer ≠ [] →
      a.Flush bits
        = some ⟨a.window, [],
            ⟨a.aggregate.queue ++ [success (sumResults bits a.buffer)], a.aggregate.cap,
              a.aggregate.closed⟩⟩ ∧
      sumResults bits a.buffer = wrapInt bits (exactSum a.buffer)) ∧
    (0 < bits → inRange bits (exactSum a.buffer) → sumResults bits a.buffer = exactSum a.buffer) ∧
    (∀ b : Aggregator, b.buffer = [] → b.Flush bits = some b) ∧
    (∃ a1, a.Flush bits = some a1 ∧ a1.Flush bits = some a1) := by
  have hempty : ∀ b : Aggregator, b.buffer = [] → b.Flush bits = some b := by
    intro b hb
    unfold Aggregator.Flush
    rw [hb]
    rfl
  have hfull : a.buffer ≠ [] →
      a.Flush bits
        = some ⟨a.window, [],
            ⟨a.aggregate.queue ++ [success (sumResults bits a.buffer)], a.aggregate.cap,
              a.aggregate.closed⟩⟩ := by
    intro hne
    have hpos : a.buffer.length > 0 := List.length_pos.2 hne
    have hnz : ¬ (a.buffer.length = 0) := by omega
    unfold Aggregator.Flush Aggregator.flush
    simp only [if_pos hpos, if_neg hnz,
      sendOrPanic_of_hasRoom a.aggregate
        { Result := sumResults bits a.buffer, Error := none } hroom]
    rfl
  refine ⟨fun hne => ⟨hfull hne, sumResults_eq bits _ hne⟩,
    fun hb hr => sumResults_exact bits hb _ hr, hempty, ?_⟩
  by_cases hne : a.buffer = []
  · exact ⟨a, hempty a hne, hempty a hne⟩
  · exact ⟨_, hfull hne, hempty _ rfl⟩

theorem Aggregator_Flush_emits_sum_witness :
    Aggregator.Flush 64 ⟨3, [success 1, success 2], ⟨[], 6, false⟩⟩
      = some ⟨3, [], ⟨[success 3], 6, false⟩⟩ :=
  ((Aggregator_Flush_emits_sum 64 ⟨3, [success 1, success 2], ⟨[], 6, false⟩⟩
    (by decide)).1 (by decide)).1

end processor

namespace processor

open models

theorem sendOrPanic_eq_some (c c2 : Chan) (r : Result) (h : c.sendOrPanic r = some c2) :
    c2 = c.push r ∧ c.hasRoom := by
  unfold Chan.sendOrPanic at h
  split_ifs at h with h1 h2
  have hopen : c.closed = false := by simpa using h1
  exact ⟨(Option.some.inj h).symm, hopen, h2⟩

theorem flush_eq_some (bits : Nat) (a a2 : Aggregator) (h : a.flush bits = some a2) :
    (a.buffer = [] ∧ a2 = a) ∨
    (a.buffer ≠ [] ∧ a.aggregate.hasRoom ∧
      a2 = ⟨a.window, [], a.aggregate.push (aggregateOf bits a.buffer)⟩) := by
  unfold Aggregator.flush at h
  split_ifs at h with h1
  · exact Or.inl ⟨List.length_eq_zero.1 h1, (Option.some.inj h).symm⟩
  · right
    have hne : a.buffer ≠ [] := fun hb => h1 (List.length_eq_zero.2 hb)
    cases hs : a.aggregate.sendOrPanic { Result := sumResults bits a.buffer, Error := none } with
    | none => rw [hs] at h; exact absurd h (by simp)
    | some ch =>
      rw [hs] at h
      obtain ⟨hch, hroom⟩ := sendOrPanic_eq_some _ _ _ hs
      subst hch
      exact ⟨hne, hroom, (Option.some.inj h).symm⟩

theorem Flush_eq_flush (bits : Nat) (a : Aggregator) : a.Flush bits = a.flush bits := by
  unfold Aggregator.Flush Aggregator.flush
  by_cases h : a.buffer.length = 0
  · have h2 : ¬ (a.buffer.length > 0) := by omega
    simp only [if_neg h2, if_pos h]
  · have h2 : a.buffer.length > 0 := by omega
    simp only [if_pos h2, if_neg h]

theorem Add_eq_some (bits : Nat) (a a2 : Aggregator) (r : Result)
    (h : a.Add bits r = some a2) :
    (r.Error ≠ none ∧ a.aggregate.hasRoom ∧ a2 = ⟨a.window, a.buffer, a.aggregate.push r⟩) ∨
    (r.Error = none ∧ (a.buffer.length : Int) + 1 < a.window ∧
      a2 = ⟨a.window, a.buffer ++ [r], a.aggregate⟩) ∨
    (r.Error = none ∧ a.window ≤ (a.buffer.length : Int) + 1 ∧ a.aggregate.hasRoom ∧
      a2 = ⟨a.window, [], a.aggregate.push (aggregateOf bits (a.buffer ++ [r]))⟩) := by
  unfold Aggregator.Add at h
  by_cases hr : r.Error ≠ none
  · left
    simp only [if_pos hr] at h
    cases hs : a.aggregate.sendOrPanic r with
    | none => rw [hs] at h; exact absurd h (by simp)
    | some ch =>
      rw [hs] at h
      obtain ⟨hch, hroom⟩ := sendOrPanic_eq_some _ _ _ hs
      subst hch
      exact ⟨hr, hroom, (Option.some.inj h).symm⟩
  · right
    have hr2 : r.Error = none := not_not.1 hr
    simp only [if_neg hr] at h
    have hlen : (((a.buffer ++ [r]).length : Nat) : Int) = (a.buffer.length : Int) + 1 := by
      rw [List.length_append, List.length_singleton]
      push_cast
      rfl
    by_cases hw : (((a.buffer ++ [r]).length : Nat) : Int) ≥ a.window
    · right
      rw [if_pos hw] at h
      rcases flush_eq_some bits _ _ h with ⟨hb, _⟩ | ⟨_, hroom, h2⟩
      · exact absurd hb (by simp)
      · exact ⟨hr2, by omega, hroom, h2⟩
    · left
      rw [if_neg hw] at h
      exact ⟨hr2, by omega, (Option.some.inj h).symm⟩

theorem Close_eq_some (bits : Nat) (a a2 : Aggregator) (h : a.Close bits = some a2) :
    ∃ a1, a.flush bits = some a1 ∧ a1.aggregate.closed = false ∧
      a2 = ⟨a1.window, a1.buffer, ⟨a1.aggregate.queue, a1.aggregate.cap, true⟩⟩ := by
  have hF : (if a.buffer.length > 0 then a.flush bits else some a) = a.flush bits :=
    Flush_eq_flush bits a
  unfold Aggregator.Close at h
  rw [hF] at h
  cases hf : a.flush bits with
  | none => rw [hf] at h; exact absurd h (by simp)
  | some a1 =>
    rw [hf] at h
    simp only at h
    unfold Chan.close at h
    by_cases hc : a1.aggregate.closed = true
    · simp only [hc, if_true] at h
      exact absurd h (by simp)
    · have hc2 : a1.aggregate.closed = false := by simpa using hc
      simp only [hc2, Bool.false_eq_true, if_false] at h
      exact ⟨a1, rfl, hc2, (Option.some.inj h).symm⟩

theorem step_recv_eq (bits : Nat) (s : AggRun) :
    ∃ s2, s.step bits AggEvent.recv = some s2 ∧ s2.emitted = s.emitted ∧
      s2.agg.window = s.agg.window ∧ s2.agg.buffer = s.agg.buffer ∧
      s2.agg.aggregate.closed = s.agg.aggregate.closed ∧
      s2.agg.aggregate.cap = s.agg.aggregate.cap := by
  obtain ⟨⟨w, buf, ⟨q, cap, cl⟩⟩, recvd⟩ := s
  cases q with
  | nil => exact ⟨_, rfl, rfl, rfl, rfl, rfl, rfl⟩
  | cons r rest =>
    refine ⟨_, rfl, ?_, rfl, rfl, rfl, rfl⟩
    simp [AggRun.emitted]

theorem step_closed (bits : Nat) (s s2 : AggRun) (e : AggEvent)
    (hc : s.agg.aggregate.closed = true) (h : s.step bits e = some s2) :
    s2.emitted = s.emitted ∧ s2.agg.aggregate.closed = true := by
  have hno : ¬ s.agg.aggregate.hasRoom := by
    rintro ⟨ho, _⟩
    rw [hc] at ho
    exact absurd ho (by decide)
  cases e with
  | add r =>
    simp only [AggRun.step, Option.map_eq_some'] at h
    obtain ⟨a2, ha, rfl⟩ := h
    rcases Add_eq_some bits _ _ _ ha with ⟨_, hr, _⟩ | ⟨_, _, rfl⟩ | ⟨_, _, hr, _⟩
    · exact absurd hr hno
    · exact ⟨rfl, hc⟩
    · exact absurd hr hno
  | flush =>
    simp only [AggRun.step, Option.map_eq_some'] at h
    obtain ⟨a2, ha, rfl⟩ := h
    rw [Flush_eq_flush] at ha
    rcases flush_eq_some bits _ _ ha with ⟨_, rfl⟩ | ⟨_, hr, _⟩
    · exact ⟨rfl, hc⟩
    · exact absurd hr hno
  | close =>
    simp only [AggRun.step, Option.map_eq_some'] at h
    obtain ⟨a2, ha, rfl⟩ := h
    obtain ⟨a1, hf, hopen, _⟩ := Close_eq_some bits _ _ ha
    rcases flush_eq_some bits _ _ hf with ⟨_, rfl⟩ | ⟨_, hr, _⟩
    · rw [hc] at hopen
      exact absurd hopen (by decide)
    · exact absurd hr hno
  | recv =>
    obtain ⟨s3, h3, hem, _, _, hcl, _⟩ := step_recv_eq bits s
    rw [h3] at h
    have : s3 = s2 := Option.some.inj h
    subst this
    exact ⟨hem, by rw [hcl]; exact hc⟩

theorem run_closed (bits : Nat) (evs : List AggEvent) :
    ∀ s s2 : AggRun, s.agg.aggregate.closed = true → AggRun.run bits s evs = some s2 →
      s2.emitted = s.emitted ∧ s2.agg.aggregate.closed = true := by
  induction evs with
  | nil =>
    intro s s2 hc h
    have : s = s2 := Option.some.inj h
    subst this
    exact ⟨rfl, hc⟩
  | cons e rest ih =>
    intro s s2 hc h
    simp only [AggRun.run] at h
    cases hs : s.step bits e with
    | none => rw [hs] at h; exact absurd h (by simp)
    | some s1 =>
      rw [hs] at h
      obtain ⟨hem, hc1⟩ := step_closed bits s s1 e hc hs
      obtain ⟨hem2, hc2⟩ := ih s1 s2 hc1 h
      exact ⟨hem2.trans hem, hc2⟩

/-- C11: when the output channel has room, `Close` does to the buffer and to
the output what `Flush` does (one final sum when the buffer is non-empty,
nothing otherwise) and then marks the channel closed, and the buffer is empty
afterwards; on an aggregator whose channel is closed, no sequence of `Add`,
`Flush`, `Close` calls and receives that runs without a panic sends anything
more: what has been sent on the output stays the same. -/
theorem Aggregator_Close_final_flush (bits : Nat) (a : Aggregator)
    (hroom : a.aggregate.hasRoom) :
    (∃ a1, a.Flush bits = some a1 ∧
      a.Close bits
        = some ⟨a1.window, a1.buffer, ⟨a1.aggregate.queue, a1.aggregate.cap, true⟩⟩ ∧
      a1.buffer = [] ∧
      a1.aggregate.queue
        = a.aggregate.queue ++ (if a.buffer = [] then [] else [aggregateOf bits a.buffer])) ∧
    (∀ (c : Aggregator) (recvd : List Result) (evs : List AggEvent) (s2 : AggRun),
      c.aggregate.closed = true → AggRun.run bits ⟨c, recvd⟩ evs = some s2 →
        s2.emitted = recvd ++ c.aggregate.queue ∧ s2.agg.aggregate.closed = true) := by
  constructor
  · have hopen : a.aggregate.closed = false := hroom.1
    by_cases hb : a.buffer = []
    · refine ⟨a, ?_, ?_, hb, by simp [hb]⟩
      · unfold Aggregator.Flush
        rw [hb]
        rfl
      · unfold Aggregator.Close Chan.close
        simp only [hb, List.length_nil, gt_iff_lt, lt_self_iff_false, if_false, hopen,
          Bool.false_eq_true]
    · have hpos : a.buffer.length > 0 := List.length_pos.2 hb
      have hnz : ¬ (a.buffer.length = 0) := by omega
      have hsend := sendOrPanic_of_hasRoom a.aggregate
        { Result := sumResults bits a.buffer, Error := none } hroom
      refine ⟨⟨a.window, [], a.aggregate.push (aggregateOf bits a.buffer)⟩, ?_, ?_, rfl, ?_⟩
      · unfold Aggregator.Flush Aggregator.flush
        simp only [if_pos hpos, if_neg hnz, hsend]
        rfl
      · unfold Aggregator.Close Aggregator.flush Chan.close
        simp only [if_pos hpos, if_neg hnz, hsend]
        simp only [Chan.push, hopen, Bool.false_eq_true, if_false]
        rfl
      · simp only [if_neg hb]
        rfl
  · intro c recvd evs s2 hc hrun
    exact run_closed bits evs ⟨c, recvd⟩ s2 hc hrun

theorem Aggregator_Close_final_flush_witness :
    Aggregator.Close 64 ⟨3, [success 1, success 2], ⟨[success 9], 6, false⟩⟩
      = some ⟨3, [], ⟨[success 9, success 3], 6, true⟩⟩ ∧
    AggRun.run 64 ⟨⟨3, [], ⟨[success 9, success 3], 6, true⟩⟩, []⟩
        [AggEvent.flush, AggEvent.add (success 4), AggEvent.recv]
      = some ⟨⟨3, [success 4], ⟨[success 3], 6, true⟩⟩, [success 9]⟩ ∧
    AggRun.emitted ⟨⟨3, [success 4], ⟨[success 3], 6, true⟩⟩, [success 9]⟩
      = [] ++ [success 9, success 3] :=
  ⟨by decide, by decide,
    ((Aggregator_Close_final_flush 64 ⟨3, [success 1, success 2], ⟨[success 9], 6, false⟩⟩
      (by decide)).2 ⟨3, [], ⟨[success 9, success 3], 6, true⟩⟩ []
      [AggEvent.flush, AggEvent.add (success 4), AggEvent.recv]
      ⟨⟨3, [success 4], ⟨[success 3], 6, true⟩⟩, [success 9]⟩ (by decide) (by decide)).1⟩

theorem step_buffer_invariant (bits : Nat) (W : Int) (hW : 0 < W) (s s2 : AggRun)
    (e : AggEvent) (hw : s.agg.window = W) (hsucc : ∀ r ∈ s.agg.buffer, r.Error = none)
    (hlen : (s.agg.buffer.length : Int) < W) (h : s.step bits e = some s2) :
    s2.agg.window = W ∧ (∀ r ∈ s2.agg.buffer, r.Error = none) ∧
      (s2.agg.buffer.length : Int) < W := by
  have hnil : (∀ r ∈ ([] : List Result), r.Error = none) ∧
      ((([] : List Result).length : Nat) : Int) < W :=
    ⟨fun r hr => absurd hr (List.not_mem_nil r), by simpa using hW⟩
  cases e with
  | add r =>
    simp only [AggRun.step, Option.map_eq_some'] at h
    obtain ⟨a2, ha, rfl⟩ := h
    rcases Add_eq_some bits _ _ _ ha with ⟨_, _, rfl⟩ | ⟨hr, hl, rfl⟩ | ⟨_, _, _, rfl⟩
    · exact ⟨hw, hsucc, hlen⟩
    · refine ⟨hw, ?_, ?_⟩
      · intro x hx
        rcases List.mem_append.1 hx with hx | hx
        · exact hsucc x hx
        · rw [List.mem_singleton.1 hx]
          exact hr
      · show (((s.agg.buffer ++ [r]).length : Nat) : Int) < W
        rw [List.length_append, List.length_singleton]
        push_cast
        rw [← hw]
        exact hl
    · exact ⟨hw, hnil.1, hnil.2⟩
  | flush =>
    simp only [AggRun.step, Option.map_eq_some'] at h
    obtain ⟨a2, ha, rfl⟩ := h
    rw [Flush_eq_flush] at ha
    rcases flush_eq_some bits _ _ ha with ⟨_, rfl⟩ | ⟨_, _, rfl⟩
    · exact ⟨hw, hsucc, hlen⟩
    · exact ⟨hw, hnil.1, hnil.2⟩
  | close =>
    simp only [AggRun.step, Option.map_eq_some'] at h
    obtain ⟨a2, ha, rfl⟩ := h
    obtain ⟨a1, hf, _, rfl⟩ := Close_eq_some bits _ _ ha
    rcases flush_eq_some bits _ _ hf with ⟨_, rfl⟩ | ⟨_, _, rfl⟩
    · exact ⟨hw, hsucc, hlen⟩
    · exact ⟨hw, hnil.1, hnil.2⟩
  | recv =>
    obtain ⟨s3, h3, _, hw3, hb3, _, _⟩ := step_recv_eq bits s
    rw [h3] at h
    have : s3 = s2 := Option.some.inj h
    subst this
    rw [hw3, hb3]
    exact ⟨hw, hsucc, hlen⟩

theorem run_buffer_invariant (bits : Nat) (W : Int) (hW : 0 < W) (evs : List AggEvent) :
    ∀ s s2 : AggRun, s.agg.window = W → (∀ r ∈ s.agg.buffer, r.Error = none) →
      (s.agg.buffer.length : Int) < W → AggRun.run bits s evs = some s2 →
      s2.agg.window = W ∧ (∀ r ∈ s2.agg.buffer, r.Error = none) ∧
        (s2.agg.buffer.length : Int) < W := by
  induction evs with
  | nil =>
    intro s s2 hw hsucc hlen h
    have : s = s2 := Option.some.inj h
    subst this
    exact ⟨hw, hsucc, hlen⟩
  | cons e rest ih =>
    intro s s2 hw hsucc hlen h
    simp only [AggRun.run] at h
    cases hs : s.step bits e with
    | none => rw [hs] at h; exact absurd h (by simp)
    | some s1 =>
      rw [hs] at h
      obtain ⟨hw1, hsucc1, hlen1⟩ := step_buffer_invariant bits W hW s s1 e hw hsucc hlen hs
      exact ih s1 s2 hw1 hsucc1 hlen1 h

/-- C20: on the aggregator created by `NewAggregator W` with `W > 0`, after
every sequence of `Add`, `Flush` and `Close` calls that have completed, with
the consumer receiving at any points in between, the buffer holds only success
results and its length is strictly less than `W`. -/
theorem Aggregator_buffer_below_window (bits : Nat) (W : Int) (a0 : Aggregator)
    (evs : List AggEvent) (s : AggRun) (hW : 0 < W)
    (hnew : NewAggregator bits W = some a0)
    (hrun : AggRun.run bits ⟨a0, []⟩ evs = some s) :
    (∀ r ∈ s.agg.buffer, r.Error = none) ∧ (s.agg.buffer.length : Int) < W := by
  obtain ⟨hw, hbuf, _, _⟩ := NewAggregator_fields bits W a0 hnew
  have h0 : ∀ r ∈ (⟨a0, []⟩ : AggRun).agg.buffer, r.Error = none := by
    intro r hr
    rw [show (⟨a0, []⟩ : AggRun).agg.buffer = a0.buffer from rfl, hbuf] at hr
    exact absurd hr (List.not_mem_nil r)
  have h1 : (((⟨a0, []⟩ : AggRun).agg.buffer.length : Nat) : Int) < W := by
    rw [show (⟨a0, []⟩ : AggRun).agg.buffer = a0.buffer from rfl, hbuf]
    simpa using hW
  exact (run_buffer_invariant bits W hW evs ⟨a0, []⟩ s hw h0 h1 hrun).2

theorem Aggregator_buffer_below_window_witness :
    AggRun.run 64 ⟨⟨2, [], ⟨[], 4, false⟩⟩, []⟩
        [AggEvent.add (success 1), AggEvent.add ⟨0, some GoError.ErrInvalidOperator⟩,
          AggEvent.add (success 2), AggEvent.recv, AggEvent.add (success 3), AggEvent.flush,
          AggEvent.add (success 4), AggEvent.close]
      = some ⟨⟨2, [], ⟨[success 3, success 3, success 4], 4, true⟩⟩,
          [⟨0, some GoError.ErrInvalidOperator⟩]⟩ ∧
    ((([] : List Result).length : Nat) : Int) < 2 :=
  ⟨by decide,
    (Aggregator_buffer_below_window 64 2 ⟨2, [], ⟨[], 4, false⟩⟩
      [AggEvent.add (success 1), AggEvent.add ⟨0, some GoError.ErrInvalidOperator⟩,
        AggEvent.add (success 2), AggEvent.recv, AggEvent.add (success 3), AggEvent.flush,
        AggEvent.add (success 4), AggEvent.close]
      ⟨⟨2, [], ⟨[success 3, success 3, success 4], 4, true⟩⟩,
        [⟨0, some GoError.ErrInvalidOperator⟩]⟩
      (by decide) (by decide) (by decide)).2⟩

theorem windows_nil (W : Nat) (hW : 0 < W) : windows W [] = [] := by
  unfold windows
  have h : (([] : List Result).length + W - 1) / W = 0 :=
    Nat.div_eq_of_lt (by simp only [List.length_nil]; omega)
  rw [h]
  rfl

theorem windows_short (W : Nat) (b : List Result) (hb : b ≠ []) (hlen : b.length < W) :
    windows W b = [b] := by
  unfold windows
  have hpos : 0 < b.length := List.length_pos.2 hb
  have h : (b.length + W - 1) / W = 1 := by
    apply Nat.div_eq_of_lt_le <;> omega
  rw [h]
  show [List.take W (List.drop (0 * W) b)] = [b]
  rw [Nat.zero_mul, List.drop_zero, List.take_of_length_le (Nat.le_of_lt hlen)]

theorem windows_full (W : Nat) (hW : 0 < W) (g rest : List Result) (hg : g.length = W) :
    windows W (g ++ rest) = g :: windows W rest := by
  unfold windows
  have h : ((g ++ rest).length + W - 1) / W = (rest.length + W - 1) / W + 1 := by
    rw [List.length_append, hg]
    have : W + rest.length + W - 1 = (rest.length + W - 1) + W := by omega
    rw [this, Nat.add_div_right _ hW]
  rw [h, List.range_succ_eq_map, List.map_cons, List.map_map]
  congr 1
  · rw [Nat.zero_mul, List.drop_zero, List.take_left' hg]
  · apply List.map_congr_left
    intro k _
    show List.take W (List.drop ((k + 1) * W) (g ++ rest)) = List.take W (List.drop (k * W) rest)
    have : (k + 1) * W = g.length + k * W := by rw [hg, Nat.succ_mul]; omega
    rw [this, List.drop_append]

theorem succ_mod_of_lt (W n c : Nat) (hn : n % W = c) (hc : c + 1 < W) :
    (n + 1) % W = c + 1 := by
  have h := Nat.div_add_mod n W
  rw [hn] at h
  have h2 : n + 1 = W * (n / W) + (c + 1) := by omega
  rw [h2, Nat.mul_add_mod, Nat.mod_eq_of_lt hc]

theorem succ_mod_of_eq (W n c : Nat) (hn : n % W = c) (hc : c + 1 = W) :
    (n + 1) % W = 0 := by
  have h := Nat.div_add_mod n W
  rw [hn] at h
  have h2 : n + 1 = W * (n / W) + (c + 1) := by omega
  rw [h2, Nat.mul_add_mod, hc, Nat.mod_self]

theorem successesOf_cons_failure (r : Result) (rs : List Result) (h : r.Error ≠ none) :
    successesOf (r :: rs) = successesOf rs := by
  unfold successesOf
  rw [List.filter_cons_of_neg (by simpa using h)]

theorem successesOf_cons_success (r : Result) (rs : List Result) (h : r.Error = none) :
    successesOf (r :: rs) = r :: successesOf rs := by
  unfold successesOf
  rw [List.filter_cons_of_pos (by simpa using h)]

theorem place_failure (W n : Nat) (r : Result) (rs aggs : List Result) (h : r.Error ≠ none) :
    place W n (r :: rs) aggs = r :: place W n rs aggs := by
  simp only [place, if_pos h]

theorem place_success_inside (W n : Nat) (r : Result) (rs aggs : List Result)
    (h : r.Error = none) (hn : (n + 1) % W ≠ 0) :
    place W n (r :: rs) aggs = place W (n + 1) rs aggs := by
  have h1 : ¬ (r.Error ≠ none) := fun hc => hc h
  simp only [place, if_neg h1, if_neg hn]

theorem place_success_completes (W n : Nat) (r g : Result) (rs more : List Result)
    (h : r.Error = none) (hn : (n + 1) % W = 0) :
    place W n (r :: rs) (g :: more) = g :: place W (n + 1) rs more := by
  have h1 : ¬ (r.Error ≠ none) := fun hc => hc h
  simp only [place, if_neg h1, if_pos hn]

theorem run_cons_eq_some (bits : Nat) (s s2 : AggRun) (e : AggEvent) (rest : List AggEvent)
    (h : AggRun.run bits s (e :: rest) = some s2) :
    ∃ s1, s.step bits e = some s1 ∧ AggRun.run bits s1 rest = some s2 := by
  simp only [AggRun.run] at h
  cases hs : s.step bits e with
  | none => rw [hs] at h; exact absurd h (by simp)
  | some s1 =>
    rw [hs] at h
    exact ⟨s1, rfl, h⟩

theorem run_close_emitted (bits : Nat) (W : Nat) (hW : 0 < W) (s s2 : AggRun)
    (hlen : s.agg.buffer.length < W)
    (h : AggRun.run bits s [AggEvent.close] = some s2) :
    s2.emitted = s.emitted ++ (windows W s.agg.buffer).map (aggregateOf bits) := by
  obtain ⟨s1, hs, h1⟩ := run_cons_eq_some bits s s2 _ _ h
  have h12 : s1 = s2 := Option.some.inj h1
  subst h12
  simp only [AggRun.step, Option.map_eq_some'] at hs
  obtain ⟨a2, ha, rfl⟩ := hs
  obtain ⟨a1, hf, _, rfl⟩ := Close_eq_some bits _ _ ha
  rcases flush_eq_some bits _ _ hf with ⟨hb, rfl⟩ | ⟨hb, _, rfl⟩
  · rw [hb, windows_nil W hW]
    simp [AggRun.emitted]
  · rw [windows_short W _ hb hlen]
    simp [AggRun.emitted, Chan.push]

theorem run_feed_emitted (bits : Nat) (W : Nat) (hW : 0 < W) (evs : List AggEvent) :
    ∀ (s s2 : AggRun) (n : Nat),
      (∀ e ∈ evs, e ≠ AggEvent.flush ∧ e ≠ AggEvent.close) →
      s.agg.window = (W : Int) →
      s.agg.buffer.length < W →
      n % W = s.agg.buffer.length →
      AggRun.run bits s (evs ++ [AggEvent.close]) = some s2 →
      s2.emitted = s.emitted ++
        place W n (addedOf evs)
          ((windows W (s.agg.buffer ++ successesOf (addedOf evs))).map (aggregateOf bits)) := by
  induction evs with
  | nil =>
    intro s s2 n _ _ hlen _ h
    rw [List.nil_append] at h
    rw [run_close_emitted bits W hW s s2 hlen h]
    simp [addedOf, successesOf, place]
  | cons e rest ih =>
    intro s s2 n hev hw hlen hn h
    have hrest : ∀ x ∈ rest, x ≠ AggEvent.flush ∧ x ≠ AggEvent.close :=
      fun x hx => hev x (List.mem_cons_of_mem e hx)
    rw [List.cons_append] at h
    obtain ⟨s1, hs, h1⟩ := run_cons_eq_some bits s s2 _ _ h
    cases e with
    | flush => exact absurd rfl (hev _ (List.mem_cons_self _ _)).1
    | close => exact absurd rfl (hev _ (List.mem_cons_self _ _)).2
    | recv =>
      obtain ⟨s3, h3, hem, hw3, hb3, _, _⟩ := step_recv_eq bits s
      rw [h3] at hs
      have : s3 = s1 := Option.some.inj hs
      subst this
      have := ih s3 s2 n hrest (by rw [hw3]; exact hw) (by rw [hb3]; exact hlen)
        (by rw [hb3]; exact hn) h1
      rw [this, hem, hb3]
      rfl
    | add r =>
      simp only [AggRun.step, Option.map_eq_some'] at hs
      obtain ⟨a2, ha, rfl⟩ := hs
      rcases Add_eq_some bits _ _ _ ha with ⟨hr, _, rfl⟩ | ⟨hr, hl, rfl⟩ | ⟨hr, hl, _, rfl⟩
      · have := ih ⟨⟨s.agg.window, s.agg.buffer, s.agg.aggregate.push r⟩, s.received⟩ s2 n
          hrest hw hlen hn h1
        rw [this]
        simp only [addedOf, successesOf_cons_failure r _ hr, place_failure W n r _ _ hr]
        simp [AggRun.emitted, Chan.push]
      · rw [hw] at hl
        have hl2 : s.agg.buffer.length + 1 < W := by omega
        have hlen2 : (s.agg.buffer ++ [r]).length < W := by
          rw [List.length_append, List.length_singleton]
          exact hl2
        have hn2 : (n + 1) % W = (s.agg.buffer ++ [r]).length := by
          rw [List.length_append, List.length_singleton]
          exact succ_mod_of_lt W n _ hn hl2
        have hne : (n + 1) % W ≠ 0 := by
          rw [hn2, List.length_append, List.length_singleton]
          omega
        have := ih ⟨⟨s.agg.window, s.agg.buffer ++ [r], s.agg.aggregate⟩, s.received⟩ s2 (n + 1)
          hrest hw hlen2 hn2 h1
        rw [this]
        simp only [addedOf, successesOf_cons_success r _ hr,
          place_success_inside W n r _ _ hr hne, List.append_assoc, List.singleton_append]
        rfl
      · rw [hw] at hl
        have hl2 : s.agg.buffer.length + 1 = W := by omega
        have hg : (s.agg.buffer ++ [r]).length = W := by
          rw [List.length_append, List.length_singleton]
          exact hl2
        have hz : (n + 1) % W = 0 := succ_mod_of_eq W n _ hn hl2
        have := ih ⟨⟨s.agg.window, [],
            s.agg.aggregate.push (aggregateOf bits (s.agg.buffer ++ [r]))⟩, s.received⟩
          s2 (n + 1) hrest hw (by simpa using hW) (by simpa using hz) h1
        rw [this]
        have hwin : windows W (s.agg.buffer ++ r :: successesOf (addedOf rest))
            = (s.agg.buffer ++ [r]) :: windows W (successesOf (addedOf rest)) := by
          rw [← windows_full W hW _ _ hg, List.append_assoc, List.singleton_append]
        simp only [addedOf, successesOf_cons_success r _ hr, hwin, List.map_cons,
          place_success_completes W n r _ _ _ hr hz, List.nil_append]
        simp [AggRun.emitted, Chan.push]

theorem successesOf_of_all_success (aggs : List Result) (h : ∀ g ∈ aggs, g.Error = none) :
    successesOf aggs = aggs := by
  unfold successesOf
  rw [List.filter_eq_self]
  intro g hg
  simpa using h g hg

theorem successesOf_place (W : Nat) (rs : List Result) :
    ∀ (n : Nat) (aggs : List Result), (∀ g ∈ aggs, g.Error = none) →
      successesOf (place W n rs aggs) = aggs := by
  induction rs with
  | nil =>
    intro n aggs h
    simp only [place]
    exact successesOf_of_all_success aggs h
  | cons r rest ih =>
    intro n aggs h
    by_cases hr : r.Error ≠ none
    · rw [place_failure W n r _ _ hr, successesOf_cons_failure _ _ hr]
      exact ih n aggs h
    · have hr2 : r.Error = none := not_not.1 hr
      by_cases hn : (n + 1) % W = 0
      · cases aggs with
        | nil =>
          simp only [place, if_neg hr, if_pos hn]
          exact ih (n + 1) [] h
        | cons g more =>
          rw [place_success_completes W n r g _ _ hr2 hn,
            successesOf_cons_success _ _ (h g (List.mem_cons_self _ _)),
            ih (n + 1) more (fun x hx => h x (List.mem_cons_of_mem _ hx))]
      · rw [place_success_inside W n r _ _ hr2 hn]
        exact ih (n + 1) aggs h

theorem successesOf_reference (bits W : Nat) (rs : List Result) :
    successesOf (reference bits W rs) = (windows W (successesOf rs)).map (aggregateOf bits) := by
  unfold reference
  apply successesOf_place
  intro g hg
  obtain ⟨x, _, rfl⟩ := List.mem_map.1 hg
  rfl

theorem exactSum_cons (r : Result) (rs : List Result) :
    exactSum (r :: rs) = r.Result + exactSum rs := by
  simp [exactSum]

theorem exactSum_append (xs ys : List Result) :
    exactSum (xs ++ ys) = exactSum xs + exactSum ys := by
  simp [exactSum]

theorem wrapInt_add_congr (bits : Nat) (a x y : Int) (h : wrapInt bits x = wrapInt bits y) :
    wrapInt bits (a + x) = wrapInt bits (a + y) := by
  rw [add_comm a x, add_comm a y, ← wrapInt_wrapInt_add bits x a, h, wrapInt_wrapInt_add]

theorem wrapInt_idem (bits : Nat) (x : Int) : wrapInt bits (wrapInt bits x) = wrapInt bits x := by
  have h := wrapInt_wrapInt_add bits x 0
  simpa using h

theorem wrapInt_exactSum_windows (bits W : Nat) (hW : 0 < W) :
    ∀ (m : Nat) (xs : List Result), xs.length = m →
      wrapInt bits (exactSum ((windows W xs).map (aggregateOf bits)))
        = wrapInt bits (exactSum xs) := by
  intro m
  induction m using Nat.strong_induction_on with
  | _ m ih =>
    intro xs hlen
    by_cases hnil : xs = []
    · subst hnil
      rw [windows_nil W hW]
      rfl
    · by_cases hshort : xs.length < W
      · rw [windows_short W xs hnil hshort]
        simp only [List.map_cons, List.map_nil, exactSum_cons, aggregateOf, success]
        rw [sumResults_eq bits xs hnil]
        simp only [exactSum, List.map_nil, List.sum_nil, add_zero]
        exact wrapInt_idem bits _
      · have hge : W ≤ xs.length := Nat.le_of_not_lt hshort
        have htake : (xs.take W).length = W := by
          rw [List.length_take]
          exact Nat.min_eq_left hge
        have hsplit : xs = xs.take W ++ xs.drop W := (List.take_append_drop W xs).symm
        have hne : xs.take W ≠ [] := by
          intro h0
          rw [h0] at htake
          simp at htake
          omega
        have hdrop : (xs.drop W).length < m := by
          rw [List.length_drop]
          omega
        have hih := ih _ hdrop (xs.drop W) rfl
        have hw : windows W xs = xs.take W :: windows W (xs.drop W) := by
          conv_lhs => rw [hsplit]
          exact windows_full W hW _ _ htake
        rw [hw]
        conv_rhs => rw [hsplit, exactSum_append]
        simp only [List.map_cons, exactSum_cons, aggregateOf, success]
        rw [sumResults_eq bits _ hne, wrapInt_wrapInt_add]
        exact wrapInt_add_congr bits _ _ _ hih

theorem Add_of_hasRoom (bits : Nat) (a : Aggregator) (r : Result)
    (hroom : a.aggregate.hasRoom) :
    ∃ a2, a.Add bits r = some a2 ∧ a2.window = a.window ∧
      a2.aggregate.closed = a.aggregate.closed ∧ a2.aggregate.cap = a.aggregate.cap ∧
      (a2.aggregate.queue = a.aggregate.queue ∨
        ∃ x, a2.aggregate.queue = a.aggregate.queue ++ [x]) := by
  by_cases hr : r.Error ≠ none
  · refine ⟨⟨a.window, a.buffer, a.aggregate.push r⟩, ?_, rfl, rfl, rfl, Or.inr ⟨r, rfl⟩⟩
    unfold Aggregator.Add
    simp only [if_pos hr, sendOrPanic_of_hasRoom a.aggregate r hroom]
  · have hr2 : r.Error = none := not_not.1 hr
    by_cases hl : (a.buffer.length : Int) + 1 < a.window
    · exact ⟨_, Add_success_below_window bits a r hr2 hl, rfl, rfl, rfl, Or.inl rfl⟩
    · exact ⟨_, Add_success_fills_window bits a r hr2 (by omega) hroom, rfl, rfl, rfl,
        Or.inr ⟨_, rfl⟩⟩

theorem Close_of_hasRoom (bits : Nat) (a : Aggregator) (hroom : a.aggregate.hasRoom) :
    ∃ a2, a.Close bits = some a2 := by
  have hopen : a.aggregate.closed = false := hroom.1
  by_cases hb : a.buffer = []
  · refine ⟨⟨a.window, a.buffer, ⟨a.aggregate.queue, a.aggregate.cap, true⟩⟩, ?_⟩
    unfold Aggregator.Close Chan.close
    simp only [hb, List.length_nil, gt_iff_lt, lt_self_iff_false, if_false, hopen,
      Bool.false_eq_true]
  · have hpos : a.buffer.length > 0 := List.length_pos.2 hb
    have hnz : ¬ (a.buffer.length = 0) := by omega
    have hsend := sendOrPanic_of_hasRoom a.aggregate
      { Result := sumResults bits a.buffer, Error := none } hroom
    refine ⟨⟨a.window, [],
      ⟨a.aggregate.queue ++ [aggregateOf bits a.buffer], a.aggregate.cap, true⟩⟩, ?_⟩
    unfold Aggregator.Close Aggregator.flush Chan.close
    simp only [if_pos hpos, if_neg hnz, hsend]
    simp only [Chan.push, hopen, Bool.false_eq_true, if_false]
    rfl

theorem drainedSchedule_cons (r : Result) (rs : List Result) :
    drainedSchedule (r :: rs) = AggEvent.add r :: AggEvent.recv :: drainedSchedule rs := by
  simp [drainedSchedule, List.flatMap_cons]

theorem addedOf_drainedSchedule (rs : List Result) : addedOf (drainedSchedule rs) = rs := by
  induction rs with
  | nil => rfl
  | cons r rest ih =>
    rw [drainedSchedule_cons]
    simp only [addedOf, ih]

theorem drainedSchedule_only_add_recv (rs : List Result) :
    ∀ e ∈ drainedSchedule rs, e ≠ AggEvent.flush ∧ e ≠ AggEvent.close := by
  induction rs with
  | nil =>
    intro e he
    exact absurd he (List.not_mem_nil e)
  | cons r rest ih =>
    intro e he
    rw [drainedSchedule_cons] at he
    rcases List.mem_cons.1 he with h | h
    · subst h
      exact ⟨by simp, by simp⟩
    · rcases List.mem_cons.1 h with h | h
      · subst h
        exact ⟨by simp, by simp⟩
      · exact ih e h

theorem run_drained_completes (bits : Nat) (rs : List Result) :
    ∀ s : AggRun, s.agg.aggregate.closed = false → s.agg.aggregate.queue = [] →
      0 < s.agg.aggregate.cap →
      ∃ s2, AggRun.run bits s (drainedSchedule rs ++ [AggEvent.close]) = some s2 := by
  induction rs with
  | nil =>
    intro s hopen hq hcap
    have hroom : s.agg.aggregate.hasRoom := ⟨hopen, by rw [hq]; simpa using hcap⟩
    obtain ⟨a2, ha⟩ := Close_of_hasRoom bits s.agg hroom
    exact ⟨⟨a2, s.received⟩, by
      simp only [drainedSchedule, List.flatMap_nil, List.nil_append, AggRun.run, AggRun.step, ha,
        Option.map_some']⟩
  | cons r rest ih =>
    intro s hopen hq hcap
    have hroom : s.agg.aggregate.hasRoom := ⟨hopen, by rw [hq]; simpa using hcap⟩
    obtain ⟨a2, ha, _, hcl, hcp, hqueue⟩ := Add_of_hasRoom bits s.agg r hroom
    rw [hq] at hqueue
    rw [drainedSchedule_cons]
    simp only [List.cons_append, AggRun.run, AggRun.step, ha, Option.map_some']
    rcases hqueue with h0 | ⟨x, hx⟩
    · simp only [Chan.recv, h0]
      exact ih ⟨a2, s.received⟩ (by rw [hcl]; exact hopen) h0 (by rw [hcp]; exact hcap)
    · rw [List.nil_append] at hx
      simp only [Chan.recv, hx]
      exact ih _ (by show a2.aggregate.closed = false; rw [hcl]; exact hopen) rfl
        (by show 0 < a2.aggregate.cap; rw [hcp]; exact hcap)

theorem run_append_eq_some (bits : Nat) (xs ys : List AggEvent) :
    ∀ s s2 : AggRun, AggRun.run bits s (xs ++ ys) = some s2 →
      ∃ s1, AggRun.run bits s xs = some s1 ∧ AggRun.run bits s1 ys = some s2 := by
  induction xs with
  | nil =>
    intro s s2 h
    exact ⟨s, rfl, h⟩
  | cons e rest ih =>
    intro s s2 h
    rw [List.cons_append] at h
    obtain ⟨s1, hs, h1⟩ := run_cons_eq_some bits s s2 _ _ h
    obtain ⟨s3, h3, h4⟩ := ih s1 s2 h1
    exact ⟨s3, by simp only [AggRun.run, hs, h3], h4⟩

/-- C19: on the aggregator created by `NewAggregator W` with `W > 0`, for every
schedule of `Add` calls and receives by the consumer followed by `Close` that
runs without a blocked send, the sequence sent on the output is that of the
reference transducer: failures at their arrival positions, and the sums of the
consecutive groups of `W` successes, each placed where its `W`-th success
arrives, the shorter last group being sent at `Close`.  Hence the number of
aggregates is the number of successes divided by `W`, rounded up, and the
emitted success values sum to the sum of the added success values in `int`
arithmetic.  When the consumer receives after every `Add`, the run completes
for every input sequence. -/
theorem Aggregator_refines_reference (bits : Nat) (W : Int) (a0 : Aggregator)
    (evs : List AggEvent) (s : AggRun) (hW : 0 < W)
    (hnew : NewAggregator bits W = some a0)
    (hevs : ∀ e ∈ evs, e ≠ AggEvent.flush ∧ e ≠ AggEvent.close)
    (hrun : AggRun.run bits ⟨a0, []⟩ (evs ++ [AggEvent.close]) = some s) :
    s.emitted = reference bits W.toNat (addedOf evs) ∧
    (successesOf s.emitted).length
      = ((successesOf (addedOf evs)).length + W.toNat - 1) / W.toNat ∧
    wrapInt bits (exactSum (successesOf s.emitted))
      = wrapInt bits (exactSum (successesOf (addedOf evs))) ∧
    (∃ s1, AggRun.run bits ⟨a0, []⟩ evs = some s1 ∧ s1.agg.buffer.length < W.toNat ∧
      s.emitted = s1.emitted ++
        (if s1.agg.buffer = [] then [] else [aggregateOf bits s1.agg.buffer])) ∧
    (a0.aggregate.hasRoom → ∀ rs : List Result,
      ∃ s2, AggRun.run bits ⟨a0, []⟩ (drainedSchedule rs ++ [AggEvent.close]) = some s2 ∧
        s2.emitted = reference bits W.toNat rs) := by
  obtain ⟨hw, hbuf, hq, hcl⟩ := NewAggregator_fields bits W a0 hnew
  have hWn : ((W.toNat : Nat) : Int) = W := Int.toNat_of_nonneg (le_of_lt hW)
  have hWpos : 0 < W.toNat := by omega
  have key : ∀ (evs2 : List AggEvent) (s2 : AggRun),
      (∀ e ∈ evs2, e ≠ AggEvent.flush ∧ e ≠ AggEvent.close) →
      AggRun.run bits ⟨a0, []⟩ (evs2 ++ [AggEvent.close]) = some s2 →
      s2.emitted = reference bits W.toNat (addedOf evs2) := by
    intro evs2 s2 he hr
    have := run_feed_emitted bits W.toNat hWpos evs2 ⟨a0, []⟩ s2 0 he
      (by show a0.window = ((W.toNat : Nat) : Int); rw [hw, hWn])
      (by show a0.buffer.length < W.toNat; rw [hbuf]; exact hWpos)
      (by show 0 % W.toNat = a0.buffer.length; rw [hbuf]; simp) hr
    rw [this]
    show ([] ++ a0.aggregate.queue) ++ place W.toNat 0 (addedOf evs2)
        ((windows W.toNat (a0.buffer ++ successesOf (addedOf evs2))).map (aggregateOf bits))
      = reference bits W.toNat (addedOf evs2)
    rw [hq, hbuf]
    rfl
  have hem := key evs s hevs hrun
  refine ⟨hem, ?_, ?_, ?_, ?_⟩
  · rw [hem, successesOf_reference, List.length_map]
    unfold windows
    rw [List.length_map, List.length_range]
  · rw [hem, successesOf_reference]
    exact wrapInt_exactSum_windows bits W.toNat hWpos _ _ rfl
  · obtain ⟨s1, h1, h2⟩ := run_append_eq_some bits evs [AggEvent.close] ⟨a0, []⟩ s hrun
    have hinv := run_buffer_invariant bits W hW evs ⟨a0, []⟩ s1 hw
      (by
        intro r hr
        rw [show (⟨a0, []⟩ : AggRun).agg.buffer = a0.buffer from rfl, hbuf] at hr
        exact absurd hr (List.not_mem_nil r))
      (by
        rw [show (⟨a0, []⟩ : AggRun).agg.buffer = a0.buffer from rfl, hbuf]
        simpa using hW) h1
    have hlt : s1.agg.buffer.length < W.toNat := by
      have := hinv.2.2
      omega
    refine ⟨s1, h1, hlt, ?_⟩
    rw [run_close_emitted bits W.toNat hWpos s1 s hlt h2]
    by_cases hb : s1.agg.buffer = []
    · rw [if_pos hb, hb, windows_nil W.toNat hWpos]
      rfl
    · rw [if_neg hb, windows_short W.toNat _ hb hlt]
      rfl
  · intro hroom rs
    have hcap : 0 < a0.aggregate.cap := by
      have := hroom.2
      rw [hq] at this
      simpa using this
    obtain ⟨s2, h2⟩ := run_drained_completes bits rs ⟨a0, []⟩ hcl hq hcap
    refine ⟨s2, h2, ?_⟩
    have := key (drainedSchedule rs) s2 (drainedSchedule_only_add_recv rs) h2
    rw [this, addedOf_drainedSchedule]

theorem Aggregator_refines_reference_witness :
    AggRun.run 64 ⟨⟨2, [], ⟨[], 4, false⟩⟩, []⟩
        ([AggEvent.add (success 1), AggEvent.add ⟨0, some GoError.ErrInvalidOperator⟩,
          AggEvent.add (success 2), AggEvent.recv, AggEvent.recv, AggEvent.add (success 3),
          AggEvent.add (success 4), AggEvent.add (success 5), AggEvent.recv]
          ++ [AggEvent.close])
      = some ⟨⟨2, [], ⟨[success 5], 4, true⟩⟩,
          [⟨0, some GoError.ErrInvalidOperator⟩, success 3, success 7]⟩ ∧
    reference 64 2 [success 1, ⟨0, some GoError.ErrInvalidOperator⟩, success 2, success 3,
        success 4, success 5]
      = [⟨0, some GoError.ErrInvalidOperator⟩, success 3, success 7, success 5] ∧
    AggRun.emitted ⟨⟨2, [], ⟨[success 5], 4, true⟩⟩,
        [⟨0, some GoError.ErrInvalidOperator⟩, success 3, success 7]⟩
      = reference 64 (Int.toNat 2)
          (addedOf [AggEvent.add (success 1), AggEvent.add ⟨0, some GoError.ErrInvalidOperator⟩,
            AggEvent.add (success 2), AggEvent.recv, AggEvent.recv, AggEvent.add (success 3),
            AggEvent.add (success 4), AggEvent.add (success 5), AggEvent.recv]) :=
  ⟨by decide, by decide,
    (Aggregator_refines_reference 64 2 ⟨2, [], ⟨[], 4, false⟩⟩
      [AggEvent.add (success 1), AggEvent.add ⟨0, some GoError.ErrInvalidOperator⟩,
        AggEvent.add (success 2), AggEvent.recv, AggEvent.recv, AggEvent.add (success 3),
        AggEvent.add (success 4), AggEvent.add (success 5), AggEvent.recv]
      ⟨⟨2, [], ⟨[success 5], 4, true⟩⟩,
        [⟨0, some GoError.ErrInvalidOperator⟩, success 3, success 7]⟩
      (by decide) (by decide) (by decide) (by decide)).1⟩

end processor

namespace pipeline

open models processor

theorem Allow_of_no_token (l : Limiter) (h : l.tokens = 0) : l.Allow = (false, l) := by
  unfold Limiter.Allow
  rw [if_neg (by omega)]

theorem Allow_of_token (l : Limiter) (h : 0 < l.tokens) :
    l.Allow = (true, { l with tokens := l.tokens - 1 }) := by
  unfold Limiter.Allow
  rw [if_pos h]

/-- The six ways `AddTask` can end, each with the condition that selects it. -/
theorem AddTask_cases (p : pipeline) (w : Bool) (t : Task) :
    (p.started = false ∧
      p.AddTask w t = some (p, some PipelineError.ErrPipelineNotStarted)) ∨
    (p.started = true ∧ p.stopped = true ∧
      p.AddTask w t = some (p, some PipelineError.ErrPipelineStopped)) ∨
    (p.started = true ∧ p.stopped = false ∧ p.limiter.tokens = 0 ∧
      p.AddTask w t = some (p, some PipelineError.ErrRateLimitExceeded)) ∨
    (p.started = true ∧ p.stopped = false ∧ 0 < p.limiter.tokens ∧ p.input.closed = true ∧
      p.AddTask w t = none) ∨
    (p.started = true ∧ p.stopped = false ∧ 0 < p.limiter.tokens ∧ p.input.closed = false ∧
      p.input.canSend w ∧
      p.AddTask w t = some ({ p with
        limiter := { p.limiter with tokens := p.limiter.tokens - 1 }
        input := { p.input with queue := p.input.queue ++ [t] } }, none)) ∨
    (p.started = true ∧ p.stopped = false ∧ 0 < p.limiter.tokens ∧ p.input.closed = false ∧
      ¬ p.input.canSend w ∧
      p.AddTask w t = some ({ p with
        limiter := { p.limiter with tokens := p.limiter.tokens - 1 } },
        some PipelineError.newBufferFull)) := by
  obtain ⟨opts, input, validated, processed, output, started, stopped, limiter⟩ := p
  unfold pipeline.AddTask
  cases started with
  | false => exact Or.inl ⟨rfl, by simp⟩
  | true =>
    right
    cases stopped with
    | true => exact Or.inl ⟨rfl, rfl, by simp⟩
    | false =>
      right
      by_cases htok : limiter.tokens = 0
      · left
        refine ⟨rfl, rfl, htok, ?_⟩
        simp [Allow_of_no_token limiter htok]
      · right
        have hpos : 0 < limiter.tokens := Nat.pos_of_ne_zero htok
        obtain ⟨queue, cap, closed⟩ := input
        cases closed with
        | true =>
          left
          refine ⟨rfl, rfl, hpos, rfl, ?_⟩
          simp [Allow_of_token limiter hpos]
        | false =>
          right
          by_cases hsend : TaskChan.canSend ⟨queue, cap, false⟩ w
          · left
            refine ⟨rfl, rfl, hpos, rfl, hsend, ?_⟩
            simp only [Allow_of_token limiter hpos, Bool.not_true, Bool.false_eq_true,
              if_false, if_pos hsend]
          · right
            refine ⟨rfl, rfl, hpos, rfl, hsend, ?_⟩
            simp only [Allow_of_token limiter hpos, Bool.not_true, Bool.false_eq_true,
              if_false, if_neg hsend]

/-- C12: `AddTask` returns `ErrPipelineNotStarted` exactly when `started` is
false, and `ErrPipelineStopped` exactly when `started` and `stopped` are both
true; in both cases the outcome is the same whatever the limiter holds,
whatever the state of the input queue and whether or not a receiver is
waiting on it. -/
theorem AddTask_lifecycle_errors (p : pipeline) (w : Bool) (t : Task) :
    ((∃ p2, p.AddTask w t = some (p2, some PipelineError.ErrPipelineNotStarted))
      ↔ p.started = false) ∧
    ((∃ p2, p.AddTask w t = some (p2, some PipelineError.ErrPipelineStopped))
      ↔ (p.started = true ∧ p.stopped = true)) ∧
    (p.started = false → ∀ (lim : Limiter) (inp : TaskChan) (w2 : Bool),
      pipeline.AddTask { p with
          limiter := lim
          input := inp } w2 t
        = some ({ p with
            limiter := lim
            input := inp }, some PipelineError.ErrPipelineNotStarted)) ∧
    (p.started = true → p.stopped = true → ∀ (lim : Limiter) (inp : TaskChan) (w2 : Bool),
      pipeline.AddTask { p with
          limiter := lim
          input := inp } w2 t
        = some ({ p with
            limiter := lim
            input := inp }, some PipelineError.ErrPipelineStopped)) := by
  refine ⟨?_, ?_, ?_, ?_⟩
  · rcases AddTask_cases p w t with ⟨hs, heq⟩ | ⟨hs, hst, heq⟩ | ⟨hs, hst, _, heq⟩ |
      ⟨hs, hst, _, _, heq⟩ | ⟨hs, hst, _, _, _, heq⟩ | ⟨hs, hst, _, _, _, heq⟩ <;>
      simp [heq, hs]
  · rcases AddTask_cases p w t with ⟨hs, heq⟩ | ⟨hs, hst, heq⟩ | ⟨hs, hst, _, heq⟩ |
      ⟨hs, hst, _, _, heq⟩ | ⟨hs, hst, _, _, _, heq⟩ | ⟨hs, hst, _, _, _, heq⟩ <;>
      simp_all
  · intro hs lim inp w2
    simp [pipeline.AddTask, hs]
  · intro hs hst lim inp w2
    simp [pipeline.AddTask, hs, hst]

theorem AddTask_lifecycle_errors_witness :
    pipeline.AddTask
        ⟨⟨2, 2, 100, 200, 100, 100⟩, ⟨[], 100, false⟩, ⟨[], 100, false⟩, ⟨[], 100, false⟩,
          ⟨[], 100, false⟩, false, false, ⟨100, 200, 0⟩⟩ true ⟨5, none⟩
      = some (⟨⟨2, 2, 100, 200, 100, 100⟩, ⟨[], 100, false⟩, ⟨[], 100, false⟩,
          ⟨[], 100, false⟩, ⟨[], 100, false⟩, false, false, ⟨100, 200, 0⟩⟩,
          some PipelineError.ErrPipelineNotStarted) :=
  (AddTask_lifecycle_errors
    ⟨⟨2, 2, 100, 200, 100, 100⟩, ⟨[], 100, false⟩, ⟨[], 100, false⟩, ⟨[], 100, false⟩,
      ⟨[], 100, false⟩, false, false, ⟨100, 200, 200⟩⟩ false ⟨5, none⟩).2.2.1 (by decide)
    ⟨100, 200, 0⟩ ⟨[], 100, false⟩ true

theorem AddTask_flags (p : pipeline) (w : Bool) (t : Task)
    (r : pipeline × Option PipelineError)
    (h : p.AddTask w t = some r) : r.1.started = p.started ∧ r.1.stopped = p.stopped := by
  rcases AddTask_cases p w t with ⟨_, heq⟩ | ⟨_, _, heq⟩ | ⟨_, _, _, heq⟩ |
    ⟨_, _, _, _, heq⟩ | ⟨_, _, _, _, _, heq⟩ | ⟨_, _, _, _, _, heq⟩ <;>
    rw [heq] at h
  · rw [← Option.some.inj h]
    exact ⟨rfl, rfl⟩
  · rw [← Option.some.inj h]
    exact ⟨rfl, rfl⟩
  · rw [← Option.some.inj h]
    exact ⟨rfl, rfl⟩
  · exact absurd h (by simp)
  · rw [← Option.some.inj h]
    exact ⟨rfl, rfl⟩
  · rw [← Option.some.inj h]
    exact ⟨rfl, rfl⟩

theorem shutdown_flags (p p1 : pipeline) (h : p.shutdown = some p1) :
    p1.started = p.started ∧ p1.stopped = true := by
  obtain ⟨opts, input, validated, processed, output, started, stopped, limiter⟩ := p
  unfold pipeline.shutdown at h
  cases stopped with
  | true =>
    simp only [Bool.not_true, Bool.false_eq_true, if_false, Option.map_eq_some'] at h
    obtain ⟨ch, _, rfl⟩ := h
    exact ⟨rfl, rfl⟩
  | false =>
    simp only [Bool.not_false, if_true] at h
    cases hin : TaskChan.close input with
    | none =>
      rw [hin] at h
      exact absurd h (by simp)
    | some ch =>
      rw [hin] at h
      simp only [Option.map_some', Option.map_eq_some'] at h
      obtain ⟨ch2, _, rfl⟩ := h
      exact ⟨rfl, rfl⟩

theorem Start_flags (p : pipeline) :
    (p.started = true → p.Start.1.started = true) ∧ p.Start.1.stopped = p.stopped ∧
      p.Start.1.started = true := by
  unfold pipeline.Start
  cases h : p.started <;> simp [h]

theorem Sys_step_invariant (s s2 : Sys) (e : SysEvent) (h : s.step e = some s2)
    (hwatch : s.watching = true → s.p.started = true)
    (hstop : s.p.stopped = true → s.p.started = true) :
    (s2.watching = true → s2.p.started = true) ∧
    (s2.p.stopped = true → s2.p.started = true) ∧
    (s.p.started = true → s2.p.started = true) ∧
    (s.p.stopped = true → s2.p.stopped = true) := by
  cases e with
  | start =>
    obtain ⟨h1, h2, h3⟩ := Start_flags s.p
    simp only [Sys.step] at h
    rcases hst : s.p.Start with ⟨p1, _ | err⟩
    · rw [hst] at h h1 h2 h3
      simp only [Option.some.injEq] at h
      subst h
      exact ⟨fun _ => h3, fun _ => h3, fun _ => h3, fun hs => by rw [h2]; exact hs⟩
    · rw [hst] at h h1 h2 h3
      simp only [Option.some.injEq] at h
      subst h
      exact ⟨fun _ => h3, fun _ => h3, fun _ => h3, fun hs => by rw [h2]; exact hs⟩
  | addTask w t =>
    simp only [Sys.step, Option.map_eq_some'] at h
    obtain ⟨r, hr, rfl⟩ := h
    obtain ⟨h1, h2⟩ := AddTask_flags s.p w t r hr
    refine ⟨?_, ?_, ?_, ?_⟩
    · intro hw
      show r.1.started = true
      rw [h1]
      exact hwatch hw
    · intro hs
      show r.1.started = true
      rw [h1]
      apply hstop
      rw [← h2]
      exact hs
    · intro hs
      show r.1.started = true
      rw [h1]
      exact hs
    · intro hs
      show r.1.stopped = true
      rw [h2]
      exact hs
  | validatorTakes =>
    simp only [Sys.step, Option.some.injEq] at h
    subst h
    exact ⟨hwatch, hstop, id, id⟩
  | cancel =>
    simp only [Sys.step, Option.some.injEq] at h
    subst h
    exact ⟨hwatch, hstop, id, id⟩
  | watcherRuns =>
    simp only [Sys.step] at h
    by_cases hc : (s.watching && s.cancelled) = true
    · rw [if_pos hc, Option.map_eq_some'] at h
      obtain ⟨p1, hp1, rfl⟩ := h
      obtain ⟨h1, h2⟩ := shutdown_flags s.p p1 hp1
      have hw : s.watching = true := by
        cases hw : s.watching
        · rw [hw] at hc
          exact absurd hc (by simp)
        · rfl
      have hstarted : p1.started = true := by rw [h1]; exact hwatch hw
      exact ⟨fun hf => absurd hf (by simp), fun _ => hstarted, fun _ => hstarted,
        fun _ => h2⟩
    · rw [if_neg hc, Option.some.injEq] at h
      subst h
      exact ⟨hwatch, hstop, id, id⟩

theorem Sys_run_invariant (evs : List SysEvent) :
    ∀ s s2 : Sys, Sys.run s evs = some s2 →
      (s.watching = true → s.p.started = true) →
      (s.p.stopped = true → s.p.started = true) →
      (s2.watching = true → s2.p.started = true) ∧
      (s2.p.stopped = true → s2.p.started = true) ∧
      (s.p.started = true → s2.p.started = true) ∧
      (s.p.stopped = true → s2.p.stopped = true) := by
  induction evs with
  | nil =>
    intro s s2 h hw hs
    have : s = s2 := Option.some.inj h
    subst this
    exact ⟨hw, hs, id, id⟩
  | cons e rest ih =>
    intro s s2 h hw hs
    simp only [Sys.run] at h
    cases hstep : s.step e with
    | none => rw [hstep] at h; exact absurd h (by simp)
    | some s1 =>
      rw [hstep] at h
      obtain ⟨a1, a2, a3, a4⟩ := Sys_step_invariant s s1 e hstep hw hs
      obtain ⟨b1, b2, b3, b4⟩ := ih s1 s2 h a1 a2
      exact ⟨b1, b2, fun x => b3 (a3 x), fun x => b4 (a4 x)⟩

theorem NewPipeline_flags (bits : Nat) (o : Options) (p : pipeline)
    (h : NewPipeline bits o = some (some p, none)) :
    p.started = false ∧ p.stopped = false ∧ p.opts = o ∧
      p.limiter = NewLimiter o.TasksPerSecond o.BurstSize ∧
      p.input.cap = o.InputBufferSize ∧ p.validated.cap = o.InputBufferSize ∧
      p.processed.cap = o.ResultBufferSize ∧ p.output.cap = o.ResultBufferSize := by
  unfold NewPipeline at h
  cases hv : o.Validate bits with
  | some err =>
    rw [hv] at h
    simp at h
  | none =>
    rw [hv] at h
    simp only at h
    unfold makeTaskChan makeChan at h
    by_cases h1 : o.InputBufferSize < 0
    · simp [h1] at h
    · by_cases h2 : o.ResultBufferSize < 0
      · simp [h1, h2] at h
      · simp only [if_neg h1, if_neg h2, Option.some.injEq, Prod.mk.injEq, and_true] at h
        subst h
        exact ⟨rfl, rfl, rfl, rfl, rfl, rfl, rfl, rfl⟩

/-- C14: the first `Start` sets `started` and returns no error; a `Start` on a
started pipeline returns an error and leaves the pipeline as it was; `Start`,
`AddTask` and `shutdown` never reset `started` or `stopped` from true to
false; and in every state reached from a new pipeline by calls of `Start` and
`AddTask`, receives by the validator, cancellation of the context and the
watcher that `Start` spawns running `shutdown`, `stopped` holds only if `started` holds. -/
theorem pipeline_lifecycle_monotone :
    (∀ p : pipeline, p.started = false → p.Start = ({ p with started := true }, none)) ∧
    (∀ p : pipeline, p.started = true →
      p.Start = (p, some PipelineError.newAlreadyStarted)) ∧
    (∀ p : pipeline, (p.started = true → p.Start.1.started = true) ∧
      p.Start.1.stopped = p.stopped) ∧
    (∀ (p : pipeline) (w : Bool) (t : Task) (r : pipeline × Option PipelineError),
      p.AddTask w t = some r → r.1.started = p.started ∧ r.1.stopped = p.stopped) ∧
    (∀ p p1 : pipeline, p.shutdown = some p1 → p1.started = p.started ∧ p1.stopped = true) ∧
    (∀ (bits : Nat) (o : Options) (p0 : pipeline) (c : Bool) (evs : List SysEvent) (s : Sys),
      NewPipeline bits o = some (some p0, none) → Sys.run ⟨p0, false, c⟩ evs = some s →
      (s.p.stopped = true → s.p.started = true)) ∧
    (∀ (s s2 : Sys) (evs : List SysEvent),
      (s.watching = true → s.p.started = true) → (s.p.stopped = true → s.p.started = true) →
      Sys.run s evs = some s2 →
      (s.p.started = true → s2.p.started = true) ∧
      (s.p.stopped = true → s2.p.stopped = true)) := by
  refine ⟨?_, ?_, ?_, AddTask_flags, shutdown_flags, ?_, ?_⟩
  · intro p h
    unfold pipeline.Start
    simp [h]
  · intro p h
    unfold pipeline.Start
    simp [h]
  · intro p
    exact ⟨(Start_flags p).1, (Start_flags p).2.1⟩
  · intro bits o p0 c evs s hnew hrun
    obtain ⟨h1, h2, _⟩ := NewPipeline_flags bits o p0 hnew
    exact (Sys_run_invariant evs ⟨p0, false, c⟩ s hrun (fun h => absurd h (by simp))
      (fun h => by
        rw [show (⟨p0, false, c⟩ : Sys).p.stopped = p0.stopped from rfl, h2] at h
        exact absurd h (by simp))).2.1
  · intro s s2 evs hw hs hrun
    exact ⟨(Sys_run_invariant evs s s2 hrun hw hs).2.2.1,
      (Sys_run_invariant evs s s2 hrun hw hs).2.2.2⟩

theorem pipeline_lifecycle_monotone_witness :
    Sys.run ⟨⟨⟨2, 2, 100, 200, 100, 100⟩, ⟨[], 100, false⟩, ⟨[], 100, false⟩,
        ⟨[], 100, false⟩, ⟨[], 100, false⟩, false, false, ⟨100, 200, 200⟩⟩, false, false⟩
      [SysEvent.start, SysEvent.addTask true ⟨5, none⟩, SysEvent.validatorTakes,
        SysEvent.addTask true ⟨8, none⟩, SysEvent.cancel, SysEvent.watcherRuns,
        SysEvent.start, SysEvent.addTask false ⟨6, none⟩]
      = some ⟨⟨⟨2, 2, 100, 200, 100, 100⟩, ⟨[⟨8, none⟩], 100, true⟩, ⟨[], 100, false⟩,
          ⟨[], 100, false⟩, ⟨[], 100, true⟩, true, true, ⟨100, 200, 198⟩⟩, false, true⟩ ∧
    ((true : Bool) = true → (true : Bool) = true) :=
  ⟨by decide,
    pipeline_lifecycle_monotone.2.2.2.2.2.1 64 ⟨2, 2, 100, 200, 100, 100⟩
      ⟨⟨2, 2, 100, 200, 100, 100⟩, ⟨[], 100, false⟩, ⟨[], 100, false⟩,
        ⟨[], 100, false⟩, ⟨[], 100, false⟩, false, false, ⟨100, 200, 200⟩⟩ false
      [SysEvent.start, SysEvent.addTask true ⟨5, none⟩, SysEvent.validatorTakes,
        SysEvent.addTask true ⟨8, none⟩, SysEvent.cancel, SysEvent.watcherRuns,
        SysEvent.start, SysEvent.addTask false ⟨6, none⟩]
      ⟨⟨⟨2, 2, 100, 200, 100, 100⟩, ⟨[⟨8, none⟩], 100, true⟩, ⟨[], 100, false⟩,
        ⟨[], 100, false⟩, ⟨[], 100, true⟩, true, true, ⟨100, 200, 198⟩⟩, false, true⟩
      (by decide) (by decide)⟩

theorem Validate_cases (bits : Nat) (o : Options) :
    (o.NumWorkers ≤ 0 ∧ o.Validate bits = some PipelineError.ErrInvalidNumWorkers) ∨
    (0 < o.NumWorkers ∧ o.AggregationWindow ≤ 0 ∧
      o.Validate bits = some PipelineError.ErrInvalidAggregationWindow) ∨
    (0 < o.NumWorkers ∧ 0 < o.AggregationWindow ∧ o.TasksPerSecond ≤ 0 ∧
      o.Validate bits = some PipelineError.ErrInvalidRateLimit) ∨
    (0 < o.NumWorkers ∧ 0 < o.AggregationWindow ∧ 0 < o.TasksPerSecond ∧
      o.Validate bits = none) := by
  unfold Options.Validate Options.validateBody
  by_cases h1 : o.NumWorkers ≤ 0
  · exact Or.inl ⟨h1, by rw [if_pos h1]⟩
  · right
    by_cases h2 : o.AggregationWindow ≤ 0
    · exact Or.inl ⟨not_le.1 h1, h2, by rw [if_neg h1, if_pos h2]⟩
    · right
      by_cases h3 : o.TasksPerSecond ≤ 0
      · exact Or.inl ⟨not_le.1 h1, not_le.1 h2, h3, by rw [if_neg h1, if_neg h2, if_pos h3]⟩
      · exact Or.inr ⟨not_le.1 h1, not_le.1 h2, not_le.1 h3, by
          rw [if_neg h1, if_neg h2, if_neg h3]⟩

/-- C15: `Options.Validate` returns an error exactly when `NumWorkers <= 0`,
`AggregationWindow <= 0` or `TasksPerSecond <= 0`; the error is
`ErrInvalidNumWorkers`, `ErrInvalidAggregationWindow` or `ErrInvalidRateLimit`
for the first of these that holds; the other three fields do not influence
the result; and `NewPipeline` returns that error, and no error when
`Validate` returns none. -/
theorem Options_Validate_errors (bits : Nat) (o : Options) :
    (o.Validate bits ≠ none ↔
      (o.NumWorkers ≤ 0 ∨ o.AggregationWindow ≤ 0 ∨ o.TasksPerSecond ≤ 0)) ∧
    (o.NumWorkers ≤ 0 → o.Validate bits = some PipelineError.ErrInvalidNumWorkers) ∧
    (0 < o.NumWorkers → o.AggregationWindow ≤ 0 →
      o.Validate bits = some PipelineError.ErrInvalidAggregationWindow) ∧
    (0 < o.NumWorkers → 0 < o.AggregationWindow → o.TasksPerSecond ≤ 0 →
      o.Validate bits = some PipelineError.ErrInvalidRateLimit) ∧
    (∀ b i r : Int,
      Options.Validate bits { o with
          BurstSize := b
          InputBufferSize := i
          ResultBufferSize := r }
        = o.Validate bits) ∧
    (∀ e, o.Validate bits = some e → NewPipeline bits o = some (none, some e)) ∧
    (o.Validate bits = none → ∀ r, NewPipeline bits o = some r → r.2 = none ∧ r.1 ≠ none) := by
  refine ⟨?_, ?_, ?_, ?_, ?_, ?_, ?_⟩
  · rcases Validate_cases bits o with ⟨h1, hv⟩ | ⟨h1, h2, hv⟩ | ⟨h1, h2, h3, hv⟩ |
      ⟨h1, h2, h3, hv⟩
    · rw [hv]
      exact ⟨fun _ => Or.inl h1, fun _ => by simp⟩
    · rw [hv]
      exact ⟨fun _ => Or.inr (Or.inl h2), fun _ => by simp⟩
    · rw [hv]
      exact ⟨fun _ => Or.inr (Or.inr h3), fun _ => by simp⟩
    · rw [hv]
      constructor
      · intro h
        exact absurd rfl h
      · intro h
        omega
  · intro h
    rcases Validate_cases bits o with ⟨_, hv⟩ | ⟨h1, _, _⟩ | ⟨h1, _, _, _⟩ | ⟨h1, _, _, _⟩
    · exact hv
    · omega
    · omega
    · omega
  · intro h1 h2
    rcases Validate_cases bits o with ⟨h, _⟩ | ⟨_, _, hv⟩ | ⟨_, h, _, _⟩ | ⟨_, h, _, _⟩
    · omega
    · exact hv
    · omega
    · omega
  · intro h1 h2 h3
    rcases Validate_cases bits o with ⟨h, _⟩ | ⟨_, h, _⟩ | ⟨_, _, _, hv⟩ | ⟨_, _, h, _⟩
    · omega
    · omega
    · exact hv
    · omega
  · intro b i r
    unfold Options.Validate Options.validateBody
    simp only
    by_cases h1 : o.NumWorkers ≤ 0
    · rw [if_pos h1, if_pos h1]
    · by_cases h2 : o.AggregationWindow ≤ 0
      · rw [if_neg h1, if_pos h2, if_neg h1, if_pos h2]
      · by_cases h3 : o.TasksPerSecond ≤ 0
        · rw [if_neg h1, if_neg h2, if_pos h3, if_neg h1, if_neg h2, if_pos h3]
        · rw [if_neg h1, if_neg h2, if_neg h3, if_neg h1, if_neg h2, if_neg h3]
  · intro e he
    unfold NewPipeline
    rw [he]
  · intro hv r hr
    unfold NewPipeline at hr
    rw [hv] at hr
    simp only at hr
    unfold makeTaskChan makeChan at hr
    by_cases h1 : o.InputBufferSize < 0
    · simp [h1] at hr
    · by_cases h2 : o.ResultBufferSize < 0
      · simp [h1, h2] at hr
      · simp only [if_neg h1, if_neg h2, Option.some.injEq] at hr
        subst hr
        exact ⟨rfl, by simp⟩

theorem Options_Validate_errors_witness :
    Options.Validate 64 ⟨3, 0, 0, 5, 0, 0⟩ = some PipelineError.ErrInvalidAggregationWindow :=
  (Options_Validate_errors 64 ⟨3, 0, 0, 5, 0, 0⟩).2.2.1 (by decide) (by decide)

/-- C16: `NewPipeline` does not raise a burst size below `TasksPerSecond`: for
valid options with `BurstSize = 1` and `TasksPerSecond = 100` the pipeline
stores `BurstSize = 1` and its limiter has capacity 1, because the raise to 100
is made on the copy of the options inside `Validate`; in general the pipeline
stores the options it was given and the limiter takes their `BurstSize`. -/
theorem NewPipeline_keeps_small_burst :
    Options.Validate 64 ⟨2, 2, 100, 1, 100, 100⟩ = none ∧
    (Options.validateBody 64 ⟨2, 2, 100, 1, 100, 100⟩).1.BurstSize = 100 ∧
    NewPipeline 64 ⟨2, 2, 100, 1, 100, 100⟩
      = some (some ⟨⟨2, 2, 100, 1, 100, 100⟩, ⟨[], 100, false⟩, ⟨[], 100, false⟩,
          ⟨[], 100, false⟩, ⟨[], 100, false⟩, false, false, ⟨100, 1, 1⟩⟩, none) ∧
    (∀ (bits : Nat) (o : Options) (p : pipeline), NewPipeline bits o = some (some p, none) →
      p.opts.BurstSize = o.BurstSize ∧ p.limiter.burst = o.BurstSize) := by
  refine ⟨by decide, by decide, by decide, ?_⟩
  intro bits o p h
  obtain ⟨_, _, ho, hl, _⟩ := NewPipeline_flags bits o p h
  rw [ho, hl]
  exact ⟨rfl, rfl⟩

/-- C17: `NewPipeline` does not default a non-positive buffer size: for valid
options with `NumWorkers = 2`, `AggregationWindow = 2` and both buffer sizes 0
the four queues have capacity 0, not 8, the default being computed on the copy
of the options inside `Validate`; with a negative size the `make` panics; in
general the input and validated queues take `InputBufferSize` and the
processed and output queues take `ResultBufferSize` as given. -/
theorem NewPipeline_keeps_buffer_sizes :
    Options.Validate 64 ⟨2, 2, 100, 200, 0, 0⟩ = none ∧
    (Options.validateBody 64 ⟨2, 2, 100, 200, 0, 0⟩).1.InputBufferSize = 8 ∧
    (Options.validateBody 64 ⟨2, 2, 100, 200, 0, 0⟩).1.ResultBufferSize = 8 ∧
    NewPipeline 64 ⟨2, 2, 100, 200, 0, 0⟩
      = some (some ⟨⟨2, 2, 100, 200, 0, 0⟩, ⟨[], 0, false⟩, ⟨[], 0, false⟩,
          ⟨[], 0, false⟩, ⟨[], 0, false⟩, false, false, ⟨100, 200, 200⟩⟩, none) ∧
    NewPipeline 64 ⟨2, 2, 100, 200, -1, 100⟩ = none ∧
    NewPipeline 64 ⟨2, 2, 100, 200, 100, -1⟩ = none ∧
    (∀ (bits : Nat) (o : Options) (p : pipeline), NewPipeline bits o = some (some p, none) →
      p.input.cap = o.InputBufferSize ∧ p.validated.cap = o.InputBufferSize ∧
      p.processed.cap = o.ResultBufferSize ∧ p.output.cap = o.ResultBufferSize) := by
  refine ⟨by decide, by decide, by decide, by decide, by decide, by decide, ?_⟩
  intro bits o p h
  obtain ⟨_, _, _, _, h1, h2, h3, h4⟩ := NewPipeline_flags bits o p h
  exact ⟨h1, h2, h3, h4⟩

end pipeline

namespace pipeline

open models processor

theorem recv_nil (c : Chan) (h : c.queue = []) : c.recv = (none, c) := by
  unfold Chan.recv
  rw [h]

theorem recv_cons (c : Chan) (r : Result) (rest : List Result) (h : c.queue = r :: rest) :
    c.recv = (some r, { c with queue := rest }) := by
  unfold Chan.recv
  rw [h]

theorem iteration_output_unchanged (bits : Nat) (s s1 : AggStage) (c : Choice) (b : Bool)
    (hq : s.agg.aggregate.queue = [])
    (hsucc : ∀ r ∈ s.processed.queue, r.Error = none)
    (hlen : (s.agg.buffer.length : Int) + (s.processed.queue.length : Int) < s.agg.window)
    (h : runAggregator.iteration bits s c = some (s1, b)) :
    s1.output = s.output ∧
    (b = false →
      s1.agg.aggregate.queue = [] ∧ (∀ r ∈ s1.processed.queue, r.Error = none) ∧
      (s1.agg.buffer.length : Int) + (s1.processed.queue.length : Int) < s1.agg.window) := by
  cases c with
  | cancel =>
    simp only [runAggregator.iteration, Option.some.injEq, Prod.mk.injEq] at h
    obtain ⟨rfl, rfl⟩ := h
    exact ⟨rfl, fun _ => ⟨hq, hsucc, hlen⟩⟩
  | ctxDone =>
    simp only [runAggregator.iteration] at h
    split_ifs at h with hc
    simp only [Option.map_eq_some', Prod.mk.injEq] at h
    obtain ⟨a, _, rfl, rfl⟩ := h
    exact ⟨rfl, fun hb => absurd hb (by simp)⟩
  | fromProcessed =>
    simp only [runAggregator.iteration] at h
    cases hpq : s.processed.queue with
    | nil =>
      rw [recv_nil _ hpq] at h
      simp only at h
      split_ifs at h with hc
      simp only [Option.map_eq_some', Prod.mk.injEq] at h
      obtain ⟨a, _, rfl, rfl⟩ := h
      exact ⟨rfl, fun hb => absurd hb (by simp)⟩
    | cons r rest =>
      rw [recv_cons _ r rest hpq] at h
      simp only [Option.map_eq_some', Prod.mk.injEq] at h
      obtain ⟨a, ha, rfl, rfl⟩ := h
      have hr : r.Error = none := hsucc r (by rw [hpq]; exact List.mem_cons_self _ _)
      rw [hpq, List.length_cons] at hlen
      push_cast at hlen
      refine ⟨rfl, fun _ => ?_⟩
      rcases Add_eq_some bits _ _ _ ha with ⟨hne, _, _⟩ | ⟨_, _, rfl⟩ | ⟨_, hw, _, _⟩
      · exact absurd hr hne
      · refine ⟨hq, ?_, ?_⟩
        · intro x hx
          exact hsucc x (by rw [hpq]; exact List.mem_cons_of_mem _ hx)
        · show (((s.agg.buffer ++ [r]).length : Nat) : Int) + (rest.length : Int)
            < s.agg.window
          rw [List.length_append, List.length_singleton]
          push_cast
          omega
      · have : (0 : Int) ≤ (rest.length : Int) := Int.natCast_nonneg _
        omega
  | forward =>
    simp only [runAggregator.iteration, Aggregator.Results] at h
    rw [recv_nil _ hq] at h
    exact absurd h (by simp)
  | forwardCancelled =>
    simp only [runAggregator.iteration, Aggregator.Results] at h
    rw [recv_nil _ hq] at h
    exact absurd h (by simp)

theorem loop_output_unchanged (bits : Nat) (schedule : List Choice) :
    ∀ s s2 : AggStage, s.agg.aggregate.queue = [] →
      (∀ r ∈ s.processed.queue, r.Error = none) →
      (s.agg.buffer.length : Int) + (s.processed.queue.length : Int) < s.agg.window →
      runAggregator.loop bits s schedule = some s2 → s2.output = s.output := by
  induction schedule with
  | nil =>
    intro s s2 _ _ _ h
    exact absurd h (by simp [runAggregator.loop])
  | cons c rest ih =>
    intro s s2 hq hsucc hlen h
    simp only [runAggregator.loop] at h
    rcases hit : runAggregator.iteration bits s c with _ | ⟨s1, b⟩
    · rw [hit] at h
      exact absurd h (by simp)
    · rw [hit] at h
      obtain ⟨hout, hinv⟩ := iteration_output_unchanged bits s s1 c b hq hsucc hlen hit
      cases b with
      | true =>
        simp only [Option.some.injEq] at h
        subst h
        exact hout
      | false =>
        simp only at h
        obtain ⟨h1, h2, h3⟩ := hinv rfl
        rw [ih s1 s2 h1 h2 h3 h, hout]

/-- C18: when `runAggregator` returns with a non-empty window in the
aggregator, the sum of that window is not delivered to the output queue: with a
window of 2 and one success in the closed processed queue, the final `Flush`
leaves the sum in the aggregator's own channel, which `Close` then closes, and
the output queue is left empty, whether the function returns because the
processed queue is closed or because the context is cancelled.  In general,
when the processed queue holds fewer successes than a window, no schedule
makes `runAggregator` change the output queue. -/
theorem runAggregator_drops_final_window :
    pipeline.runAggregator 64
        ⟨⟨2, 2, 100, 200, 100, 100⟩, ⟨[], 100, true⟩, ⟨[], 100, true⟩,
          ⟨[success 5], 100, true⟩, ⟨[], 100, false⟩, true, false, ⟨100, 200, 199⟩⟩ false
        [Choice.fromProcessed, Choice.fromProcessed]
      = some ⟨⟨[], 100, true⟩, ⟨2, [], ⟨[success 5], 4, true⟩⟩, ⟨[], 100, false⟩, false⟩ ∧
    pipeline.runAggregator 64
        ⟨⟨2, 2, 100, 200, 100, 100⟩, ⟨[], 100, true⟩, ⟨[], 100, true⟩,
          ⟨[success 5], 100, true⟩, ⟨[], 100, false⟩, true, false, ⟨100, 200, 199⟩⟩ false
        [Choice.fromProcessed, Choice.cancel, Choice.ctxDone]
      = some ⟨⟨[], 100, true⟩, ⟨2, [], ⟨[success 5], 4, true⟩⟩, ⟨[], 100, false⟩, true⟩ ∧
    (∀ (bits : Nat) (p : pipeline) (cancelled : Bool) (schedule : List Choice) (s : AggStage),
      (∀ r ∈ p.processed.queue, r.Error = none) →
      (p.processed.queue.length : Int) < p.opts.AggregationWindow →
      p.runAggregator bits cancelled schedule = some s → s.output = p.output) := by
  refine ⟨by decide, by decide, ?_⟩
  intro bits p cancelled schedule s hsucc hlen h
  unfold pipeline.runAggregator at h
  cases hnew : NewAggregator bits p.opts.AggregationWindow with
  | none =>
    rw [hnew] at h
    exact absurd h (by simp)
  | some agg =>
    rw [hnew] at h
    simp only at h
    obtain ⟨hw, hbuf, hq, _⟩ := NewAggregator_fields bits _ agg hnew
    cases hloop : runAggregator.loop bits ⟨p.processed, agg, p.output, cancelled⟩ schedule with
    | none =>
      rw [hloop] at h
      exact absurd h (by simp)
    | some s1 =>
      rw [hloop] at h
      simp only [Option.map_eq_some'] at h
      obtain ⟨a, _, rfl⟩ := h
      have := loop_output_unchanged bits schedule ⟨p.processed, agg, p.output, cancelled⟩ s1
        hq hsucc (by
          show (agg.buffer.length : Int) + (p.processed.queue.length : Int) < agg.window
          rw [hbuf, hw]
          simpa using hlen) hloop
      exact this

end pipeline

namespace processor

open models

theorem validateOperations_append_valid (pre rest : List Operation)
    (h : ∀ x ∈ pre, validateOperation x = none) :
    validateOperations (pre ++ rest) = validateOperations rest := by
  induction pre with
  | nil => rfl
  | cons x tl ih =>
    have hx : validateOperation x = none := h x (List.mem_cons_self x tl)
    simp only [List.cons_append, validateOperations, hx]
    exact ih (fun y hy => h y (List.mem_cons_of_mem x hy))

theorem validateOperations_cons_invalid (op : Operation) (post : List Operation)
    (h : validateOperation op ≠ none) :
    validateOperations (op :: post) = validateOperation op := by
  cases hop : validateOperation op with
  | none => exact absurd hop h
  | some e => simp only [validateOperations, hop]

theorem validateOperation_of_invalid_operator (op : Operation)
    (h : ¬ validOperator op.Operator) :
    validateOperation op = some GoError.ErrInvalidOperator := by
  have hr : op.Operator < 0 ∨ op.Operator ≥ OperatorTotalAmount := by
    by_contra hc
    push_neg at hc
    exact h ((validOperator_iff_range _).2 ⟨hc.1, hc.2⟩)
  unfold validateOperation
  rw [if_pos hr]

theorem validateOperation_of_divide_zero (op : Operation)
    (hv : validOperator op.Operator) (hd : op.Operator = OperatorDivide ∧ op.Value = 0) :
    validateOperation op = some GoError.newDivisionByZero := by
  have hr : ¬ (op.Operator < 0 ∨ op.Operator ≥ OperatorTotalAmount) := by
    obtain ⟨h0, h4⟩ := (validOperator_iff_range _).1 hv
    rintro (h | h)
    · exact absurd h0 (not_le.mpr h)
    · exact absurd h4 (not_lt.mpr h)
  unfold validateOperation
  rw [if_neg hr, if_pos hd]

theorem validateOperations_first_invalid (ops : List Operation) (e : GoError)
    (h : validateOperations ops = some e) :
    ∃ pre op post, ops = pre ++ op :: post ∧ (∀ x ∈ pre, validateOperation x = none) ∧
      validateOperation op = some e := by
  induction ops with
  | nil => simp [validateOperations] at h
  | cons x tl ih =>
    cases hx : validateOperation x with
    | some e1 =>
      simp only [validateOperations, hx] at h
      exact ⟨[], x, tl, rfl, fun y hy => absurd hy (List.not_mem_nil y), by rw [hx, h]⟩
    | none =>
      simp only [validateOperations, hx] at h
      obtain ⟨pre, op, post, hsplit, hpre, hop⟩ := ih h
      refine ⟨x :: pre, op, post, by rw [hsplit]; rfl, ?_, hop⟩
      intro y hy
      rcases List.mem_cons.1 hy with hy | hy
      · rw [hy]
        exact hx
      · exact hpre y hy

/-- C21: when the operations field is present and `op` is the first invalid
operation (its operator is outside the valid set, or it is a Divide with
operand 0), `ValidateTask` returns `ErrInvalidOperator` if the operator of `op`
is outside the valid set, that is negative or at least `OperatorTotalAmount`,
and otherwise the error built in place with the message "division by zero",
the message of `ErrDivisionByZero`; the operations after `op` and the value of
the task do not affect the error; every rejected task with present operations
has such a first invalid operation; and `[Divide 0, invalid]` gives division by
zero while `[invalid, Divide 0]` gives invalid operator. -/
theorem ValidateTask_first_invalid_decides (v : Int) (pre post : List Operation)
    (op : Operation)
    (hpre : ∀ x ∈ pre, validOperator x.Operator ∧
      ¬(x.Operator = OperatorDivide ∧ x.Value = 0))
    (hop : ¬(validOperator op.Operator ∧ ¬(op.Operator = OperatorDivide ∧ op.Value = 0))) :
    (¬ validOperator op.Operator →
      ValidateTask ⟨v, some (pre ++ op :: post)⟩ = some GoError.ErrInvalidOperator) ∧
    (validOperator op.Operator →
      ValidateTask ⟨v, some (pre ++ op :: post)⟩ = some GoError.newDivisionByZero) ∧
    (¬ validOperator op.Operator ↔ (op.Operator < 0 ∨ op.Operator ≥ OperatorTotalAmount)) ∧
    GoError.newDivisionByZero.Error = "division by zero" ∧
    GoError.newDivisionByZero.Error = GoError.ErrDivisionByZero.Error ∧
    (∀ (post2 : List Operation) (v2 : Int),
      ValidateTask ⟨v2, some (pre ++ op :: post2)⟩
        = ValidateTask ⟨v, some (pre ++ op :: post)⟩) ∧
    ValidateTask ⟨v, some [⟨OperatorDivide, 0⟩, ⟨OperatorTotalAmount, 1⟩]⟩
      = some GoError.newDivisionByZero ∧
    ValidateTask ⟨v, some [⟨OperatorTotalAmount, 1⟩, ⟨OperatorDivide, 0⟩]⟩
      = some GoError.ErrInvalidOperator ∧
    (∀ (ops : List Operation) (e : GoError), ValidateTask ⟨v, some ops⟩ = some e →
      ∃ pre2 op2 post2, ops = pre2 ++ op2 :: post2 ∧
        (∀ x ∈ pre2, validOperator x.Operator ∧
          ¬(x.Operator = OperatorDivide ∧ x.Value = 0)) ∧
        ¬(validOperator op2.Operator ∧ ¬(op2.Operator = OperatorDivide ∧ op2.Value = 0)) ∧
        validateOperation op2 = some e) := by
  have hpre2 : ∀ x ∈ pre, validateOperation x = none :=
    fun x hx => (validateOperation_eq_none_iff x).2 (hpre x hx)
  have hop2 : validateOperation op ≠ none :=
    fun h => hop ((validateOperation_eq_none_iff op).1 h)
  have hval : ∀ (post2 : List Operation) (v2 : Int),
      ValidateTask ⟨v2, some (pre ++ op :: post2)⟩ = validateOperation op := by
    intro post2 v2
    show validateOperations (pre ++ op :: post2) = validateOperation op
    rw [validateOperations_append_valid pre _ hpre2, validateOperations_cons_invalid op _ hop2]
  refine ⟨?_, ?_, ?_, rfl, rfl, ?_, rfl, rfl, ?_⟩
  · intro h
    rw [hval, validateOperation_of_invalid_operator op h]
  · intro h
    have hd : op.Operator = OperatorDivide ∧ op.Value = 0 := by
      by_contra hc
      exact hop ⟨h, hc⟩
    rw [hval, validateOperation_of_divide_zero op h hd]
  · rw [validOperator_iff_range]
    constructor
    · intro h
      by_contra hc
      push_neg at hc
      exact h ⟨hc.1, hc.2⟩
    · rintro (h | h) ⟨h0, h4⟩
      · exact absurd h0 (not_le.mpr h)
      · exact absurd h4 (not_lt.mpr h)
  · intro post2 v2
    rw [hval, hval]
  · intro ops e h
    obtain ⟨pre2, op2, post2, hsplit, hp, ho⟩ := validateOperations_first_invalid ops e h
    refine ⟨pre2, op2, post2, hsplit, ?_, ?_, ho⟩
    · intro x hx
      exact (validateOperation_eq_none_iff x).1 (hp x hx)
    · intro hc
      rw [(validateOperation_eq_none_iff op2).2 hc] at ho
      exact absurd ho (by simp)

theorem ValidateTask_first_invalid_decides_witness :
    ValidateTask ⟨7, some ([⟨OperatorPlus, 1⟩, ⟨OperatorDivide, 2⟩] ++
        ⟨OperatorDivide, 0⟩ :: [⟨-1, 3⟩, ⟨OperatorPlus, 4⟩])⟩
      = some GoError.newDivisionByZero :=
  (ValidateTask_first_invalid_decides 7 [⟨OperatorPlus, 1⟩, ⟨OperatorDivide, 2⟩]
    [⟨-1, 3⟩, ⟨OperatorPlus, 4⟩] ⟨OperatorDivide, 0⟩ (by decide) (by decide)).2.1 (by decide)

end processor
